import Mathlib

/-
Verification development for spyder's docstring generator
(spyder/plugins/editor/extensions/docstring.py).

The module is embedded shallowly over `List Char`:

* text is a list of characters; positions are `Nat` indices;
* Python's `str.find`/`str.rfind` (which return `-1` on failure) are
  modelled with `Int` results, and Python slice semantics (negative
  indices count from the end, out-of-range indices clamp) are modelled
  by `pySliceIdx`/`pySlice`;
* Python `dict` position maps are insertion-ordered association lists;
* code paths that `raise IndexError` are modelled with `Option`
  (`none` = the exception escaped to the caller).
-/

set_option maxRecDepth 10000

/-! ### Python string primitives -/

/-- Whitespace as recognised by Python's `str.strip` (ASCII part; the
source never feeds it non-ASCII whitespace). -/
def isPySpace (c : Char) : Bool :=
  c == ' ' || c == '\t' || c == '\n' || c == '\r' || c == '\x0b' || c == '\x0c'

/-- Python `str.lstrip()`. -/
def lstripF (l : List Char) : List Char := l.dropWhile isPySpace

/-- Python `str.rstrip()`. -/
def rstripF (l : List Char) : List Char := (l.reverse.dropWhile isPySpace).reverse

/-- Python `str.strip()`. -/
def stripF (l : List Char) : List Char := rstripF (lstripF l)

/-- Elements `a`, `a+1`, …, `b-1` of a list: Python `s[a:b]` for
non-negative in-range indices. -/
def sliceN (a b : Nat) (l : List Char) : List Char := (l.take b).drop a

/-- Resolve one Python slice index: negative indices have the length
added, then the result is clamped into `[0, n]`. -/
def pySliceIdx (n : Nat) (i : Int) : Nat :=
  if i < 0 then (i + Int.ofNat n).toNat else min i.toNat n

/-- Python `s[a:b]` with full slice semantics. -/
def pySlice (l : List Char) (a b : Int) : List Char :=
  sliceN (pySliceIdx l.length a) (pySliceIdx l.length b) l

/-- Index of the first occurrence of a character, if any. -/
def findCharIdx (c : Char) : List Char → Option Nat
  | [] => none
  | x :: xs => if x == c then some 0 else (findCharIdx c xs).map (· + 1)

/-- Python `text.find(c)` for a single character: first index or `-1`. -/
def pyFindChar (l : List Char) (c : Char) : Int :=
  match findCharIdx c l with
  | some i => Int.ofNat i
  | none => -1

/-- All positions (relative to a running index `i`) holding character `c`,
in increasing order. -/
def charPosGo (c : Char) : List Char → Nat → List Nat
  | [], _ => []
  | x :: xs, i => if x == c then i :: charPosGo c xs (i + 1) else charPosGo c xs (i + 1)

/-- Python `text.rfind(c, a, b)` for a single character: highest index of
`c` within the slice range `[a:b)`, or `-1`. -/
def pyRFindCharBetween (l : List Char) (c : Char) (a b : Int) : Int :=
  let lo := pySliceIdx l.length a
  let hi := pySliceIdx l.length b
  match ((charPosGo c l 0).filter (fun i => decide (lo ≤ i) && decide (i < hi))).getLast? with
  | some i => Int.ofNat i
  | none => -1

/-- Python `text.find(sub)` for a substring: first index at which `sub`
occurs (`0` for the empty substring), or `-1`. -/
def pyFindSub (l sub : List Char) : Int :=
  match (List.range (l.length + 1)).find? (fun i => sub.isPrefixOf (l.drop i)) with
  | some i => Int.ofNat i
  | none => -1

/-- Python `text.rfind(sub)` for a substring: last index at which `sub`
occurs, or `-1`. -/
def pyRFindSub (l sub : List Char) : Int :=
  match ((List.range (l.length + 1)).filter (fun i => sub.isPrefixOf (l.drop i))).getLast? with
  | some i => Int.ofNat i
  | none => -1

/-- Python `text.replace('\r\n', '')` (left-to-right, non-overlapping). -/
def removeCRLF : List Char → List Char
  | [] => []
  | '\r' :: '\n' :: rest => removeCRLF rest
  | x :: rest => x :: removeCRLF rest

/-- Python `text.replace('\n', '')`. -/
def removeLF : List Char → List Char
  | [] => []
  | '\n' :: rest => removeLF rest
  | x :: rest => x :: removeLF rest

/-- Worker for `pyReplace`: when `skip` is positive we are inside an
already-replaced occurrence and drop characters. -/
def pyReplaceGo (pat rep : List Char) : List Char → Nat → List Char
  | [], _ => []
  | _ :: xs, skip + 1 => pyReplaceGo pat rep xs skip
  | x :: xs, 0 =>
    if !pat.isEmpty && pat.isPrefixOf (x :: xs)
    then rep ++ pyReplaceGo pat rep xs (pat.length - 1)
    else x :: pyReplaceGo pat rep xs 0

/-- Python `s.replace(pat, rep)`: leftmost, non-overlapping. -/
def pyReplace (s pat rep : List Char) : List Char := pyReplaceGo pat rep s 0

/-! ### The data model: `FunctionInfo` -/

/-- State of a `FunctionInfo` object.  `arg_type_list` and
`arg_value_list` hold `None`-or-string entries (`Option`); `n_indent`
is an `int` in the source (result of `str.find`). -/
structure FunctionInfo where
  has_info : Bool
  func_text : List Char
  args_text : List Char
  n_indent : Int
  arg_name_list : List (List Char)
  arg_type_list : List (Option (List Char))
  arg_value_list : List (Option (List Char))
  return_type : Option (List Char)
  deriving Repr, DecidableEq

/-- `FunctionInfo.__init__`. -/
def initInfo : FunctionInfo :=
  { has_info := false
    func_text := []
    args_text := []
    n_indent := 0
    arg_name_list := []
    arg_type_list := []
    arg_value_list := []
    return_type := none }

/-! ### Delimiter scanner -/

/-- `FunctionInfo.is_char_in_pairs`: the position lies strictly inside
one of the (open, close) pairs. -/
def is_char_in_pairs (pos_char : Nat) (pairs : List (Nat × Nat)) : Bool :=
  pairs.any (fun p => decide (p.1 < pos_char) && decide (pos_char < p.2))

/-- Core loop of `FunctionInfo.find_quote_position`.  The state is the
running index `i`, the previous character `prev` (Python reads
`text[i - 1]`; the initial value is irrelevant because the branch that
consults it is unreachable at `i = 0`), the "inside a string" state
(`some (quote, left_pos)`), and the pairs found so far. -/
def fqpCore : List Char → Nat → Char → Option (Char × Nat) → List (Nat × Nat) →
    Option (Char × Nat) × List (Nat × Nat)
  | [], _, _, st, acc => (st, acc)
  | c :: rest, i, _, none, acc =>
    if c == '\'' || c == '"'
    then fqpCore rest (i + 1) c (some (c, i)) acc
    else fqpCore rest (i + 1) c none acc
  | c :: rest, i, prev, some (q, l), acc =>
    if c == q && prev != '\\'
    then fqpCore rest (i + 1) c none (acc ++ [(l, i)])
    else fqpCore rest (i + 1) c (some (q, l)) acc

/-- `FunctionInfo.find_quote_position`: `none` models the
`IndexError` raised when the scan ends inside a string. -/
def find_quote_position (text : List Char) : Option (List (Nat × Nat)) :=
  match fqpCore text 0 'x' none [] with
  | (none, acc) => some acc
  | (some _, _) => none

/-- Core loop of `FunctionInfo.find_bracket_position`: a stack of open
positions; a closer with an empty stack models the in-loop
`IndexError` (`none`). -/
def fbpCore (bl br : Char) (pos_quote : List (Nat × Nat)) :
    List Char → Nat → List Nat → List (Nat × Nat) →
    Option (List Nat × List (Nat × Nat))
  | [], _, stack, acc => some (stack, acc)
  | c :: rest, i, stack, acc =>
    if c == bl && !is_char_in_pairs i pos_quote then
      fbpCore bl br pos_quote rest (i + 1) (i :: stack) acc
    else if c == br && !is_char_in_pairs i pos_quote then
      match stack with
      | [] => none
      | top :: s => fbpCore bl br pos_quote rest (i + 1) s (acc ++ [(top, i)])
    else fbpCore bl br pos_quote rest (i + 1) stack acc

/-- `FunctionInfo.find_bracket_position`: a non-empty stack at end of
scan models the post-loop `IndexError`. -/
def find_bracket_position (text : List Char) (bl br : Char)
    (pos_quote : List (Nat × Nat)) : Option (List (Nat × Nat)) :=
  match fbpCore bl br pos_quote text 0 [] [] with
  | none => none
  | some (stack, acc) => if stack.isEmpty then some acc else none

/-! ### Argument splitter -/

/-- The comma at `p` is ignored (not a split point) when it is enclosed
by a pair of any of the four maps. -/
def enclosedComma (pos_round pos_curly pos_square pos_quote : List (Nat × Nat))
    (p : Nat) : Bool :=
  is_char_in_pairs p pos_round || is_char_in_pairs p pos_curly ||
  is_char_in_pairs p pos_square || is_char_in_pairs p pos_quote

/-- The `while 1` loop of `FunctionInfo.split_args_text_to_list`.  The
source repeatedly takes `args_text.find(',', idx_find_start)` and bumps
`idx_find_start` one past it, so it visits every comma position in
increasing order; `cuts` materialises that sequence.  `idx_arg_start`
and the accumulated segments match the source's locals, including the
final `if idx_arg_start < len(args_text)` trailing append. -/
def splitArgsGo (args_text : List Char)
    (pos_round pos_curly pos_square pos_quote : List (Nat × Nat)) :
    List Nat → Nat → List (List Char) → List (List Char)
  | [], idx_arg_start, acc =>
    if idx_arg_start < args_text.length
    then acc ++ [args_text.drop idx_arg_start]
    else acc
  | pos_comma :: cuts, idx_arg_start, acc =>
    if enclosedComma pos_round pos_curly pos_square pos_quote pos_comma
    then splitArgsGo args_text pos_round pos_curly pos_square pos_quote cuts idx_arg_start acc
    else splitArgsGo args_text pos_round pos_curly pos_square pos_quote cuts (pos_comma + 1)
      (acc ++ [sliceN idx_arg_start pos_comma args_text])

/-- `FunctionInfo.split_args_text_to_list`; `none` models the
`return None` taken when any delimiter scan raises `IndexError`. -/
def split_args_text_to_list (args_text : List Char) : Option (List (List Char)) :=
  match find_quote_position args_text with
  | none => none
  | some pos_quote =>
    match find_bracket_position args_text '(' ')' pos_quote,
          find_bracket_position args_text '{' '}' pos_quote,
          find_bracket_position args_text '[' ']' pos_quote with
    | some pos_round, some pos_curly, some pos_square =>
      some (splitArgsGo args_text pos_round pos_curly pos_square pos_quote
        (charPosGo ',' args_text 0) 0 [])
    | _, _, _ => none

/-! ### Argument classifier -/

/-- Loop body of `FunctionInfo.split_arg_to_name_type_value` for one raw
argument: the `has_type` / `has_value` case analysis on the first `:`
and the first `=`.  Note the final branch returns the segment
unstripped, exactly as the source does. -/
def classifyArg (arg : List Char) :
    List Char × Option (List Char) × Option (List Char) :=
  match findCharIdx ':' arg, findCharIdx '=' arg with
  | some pos_colon, some pos_equal =>
    if pos_equal > pos_colon then
      -- has_value and has_type
      (stripF (sliceN 0 pos_colon arg),
       some (stripF (sliceN (pos_colon + 1) pos_equal arg)),
       some (stripF (arg.drop (pos_equal + 1))))
    else
      -- has_value, not has_type (colon only inside the default value)
      (stripF (sliceN 0 pos_equal arg),
       none,
       some (stripF (arg.drop (pos_equal + 1))))
  | some pos_colon, none =>
    -- has_type, not has_value
    (stripF (sliceN 0 pos_colon arg),
     some (stripF (arg.drop (pos_colon + 1))),
     none)
  | none, some pos_equal =>
    -- has_value, not has_type
    (stripF (sliceN 0 pos_equal arg),
     none,
     some (stripF (arg.drop (pos_equal + 1))))
  | none, none =>
    (arg, none, none)

/-- `FunctionInfo.split_arg_to_name_type_value`: appends one entry per
raw segment to each of the three lists. -/
def split_arg_to_name_type_value (args_list : List (List Char))
    (f : FunctionInfo) : FunctionInfo :=
  match args_list with
  | [] => f
  | arg :: rest =>
    let t := classifyArg arg
    split_arg_to_name_type_value rest
      { f with arg_name_list := f.arg_name_list ++ [t.1]
               arg_type_list := f.arg_type_list ++ [t.2.1]
               arg_value_list := f.arg_value_list ++ [t.2.2] }

/-! ### Signature assembler -/

/-- `is_start_of_function`. -/
def is_start_of_function (text : List Char) : Bool :=
  let t := lstripF text
  List.isPrefixOf ( "def".toList) t || List.isPrefixOf ( "async def".toList) t

/-- Character class of the return-type regex:
`[a-zA-Z0-9_,()\[\] ]`. -/
def returnTypeCharOk (c : Char) : Bool :=
  c.isAlpha || c.isDigit || c == '_' || c == ',' || c == '(' || c == ')' ||
  c == '[' || c == ']' || c == ' '

/-- Does the text after an `->` complete a match of
`->[ ]*([a-zA-Z0-9_,()\[\] ]*):$`?  That holds iff it ends in `:` and
everything before that colon is in the class (spaces are in the class,
so the greedy `[ ]*` does not affect matchability). -/
def arrowSuffixOk (r : List Char) : Bool :=
  decide (r.getLast? = some ':') && r.dropLast.all returnTypeCharOk

/-- `re.search(r'->[ ]*([a-zA-Z0-9_,()\[\] ]*):$', text)`: the earliest
start position of a match together with group 1 (the captured type:
what remains of the suffix after the greedy run of spaces and before
the final colon). -/
def reSearchReturnType : List Char → Option (Nat × List Char)
  | [] => none
  | '-' :: '>' :: r =>
    if arrowSuffixOk r
    then some (0, r.dropLast.dropWhile (fun c => c == ' '))
    else (reSearchReturnType ('>' :: r)).map (fun pg => (pg.1 + 1, pg.2))
  | _ :: rest => (reSearchReturnType rest).map (fun pg => (pg.1 + 1, pg.2))

/-- `FunctionInfo.parse`.  Mirrors the source line by line: re-init,
keyword check, `n_indent = text.find(text.lstrip())`, strip and
newline removal, return-type regex (`text_end` is
`text.rfind(match.group(0))`), then
`pos_args_start = text.find('(') + 1` and
`pos_args_end = text.rfind(')', pos_args_start, text_end)` — both of
which yield `-1` on failure and flow into the Python slice
`text[pos_args_start:pos_args_end]` unchecked. -/
def parse (text : List Char) : FunctionInfo :=
  let f := initInfo
  if !is_start_of_function text then f
  else
    let nIndent : Int := pyFindSub text (lstripF text)
    let text1 := stripF text
    let text2 := removeLF (removeCRLF text1)
    let rtAndEnd : Option (List Char) × Int :=
      match reSearchReturnType text2 with
      | some pg => (some pg.2, pyRFindSub text2 (text2.drop pg.1))
      | none => (none, Int.ofNat text2.length)
    let pos_args_start : Int := pyFindChar text2 '(' + 1
    let pos_args_end : Int := pyRFindCharBetween text2 ')' pos_args_start rtAndEnd.2
    let argsText := pySlice text2 pos_args_start pos_args_end
    let f := { f with n_indent := nIndent, return_type := rtAndEnd.1, args_text := argsText }
    match split_args_text_to_list argsText with
    | none => f
    | some args_list => split_arg_to_name_type_value args_list { f with has_info := true }

/-! ### Docstring renderer (numpy style) -/

/-- Python truthiness of a `None`-or-string value. -/
def optTruthy : Option (List Char) → Bool
  | some s => !s.isEmpty
  | none => false

/-- The `for arg_name, arg_type, arg_value in zip(...)` body of
`_generate_numpy_doc`, accumulating `arg_text`. -/
def numpyArgText (indent1 indent2 quote3 quote3_other : List Char) :
    List (List Char × Option (List Char) × Option (List Char)) → List Char
  | [] => []
  | (arg_name, arg_type, arg_value) :: rest =>
    indent1 ++ arg_name ++ " : ".toList ++
    (if optTruthy arg_type then arg_type.getD [] else "[type]".toList) ++
    (if optTruthy arg_value then ", optional".toList else []) ++
    [ '\n' ] ++ indent2 ++ "[description]".toList ++
    (if optTruthy arg_value then
      " (the default is ".toList ++
      pyReplace (arg_value.getD []) quote3 quote3_other ++ [ ')' ]
     else []) ++
    [ '\n' ] ++
    numpyArgText indent1 indent2 quote3 quote3_other rest

/-- `DocstringExtension._generate_numpy_doc`.  The source binds local
names to the three argument lists of `func_info` and, when the first
name is `'self'`, executes `del arg_names[0]` (and likewise for types
and values) — which mutates the lists held by `func_info` itself.  The
embedding therefore returns the text together with the (possibly
mutated) `FunctionInfo`. -/
def generate_numpy_doc (func_info : FunctionInfo) (quote3 quote3_other : List Char) :
    List Char × FunctionInfo :=
  let argNames0 := func_info.arg_name_list
  let argTypes0 := func_info.arg_type_list
  let argValues0 := func_info.arg_value_list
  let dropSelf := decide (argNames0.head? = some ( "self".toList))
  let arg_names := if dropSelf then argNames0.tail else argNames0
  let arg_types := if dropSelf then argTypes0.tail else argTypes0
  let arg_values := if dropSelf then argValues0.tail else argValues0
  let func_info1 :=
    if dropSelf then
      { func_info with arg_name_list := arg_names
                       arg_type_list := arg_types
                       arg_value_list := arg_values }
    else func_info
  let indent1 := List.replicate (4 + func_info.n_indent).toNat ' '
  let indent2 := List.replicate (8 + func_info.n_indent).toNat ' '
  let doc :=
    [ '\n' ] ++
    (if arg_names.length > 0 then
      [ '\n' ] ++ indent1 ++ "Parameters".toList ++
      [ '\n' ] ++ indent1 ++ "----------".toList ++ [ '\n' ]
     else []) ++
    numpyArgText indent1 indent2 quote3 quote3_other
      (arg_names.zip (arg_types.zip arg_values)) ++
    [ '\n' ] ++ indent1 ++ "Returns".toList ++
    [ '\n' ] ++ indent1 ++ "-------".toList ++
    (if optTruthy func_info.return_type then
      [ '\n' ] ++ indent1 ++ func_info.return_type.getD [] ++
      [ '\n' ] ++ indent2 ++ "[description]".toList ++ [ '\n' ]
     else
      [ '\n' ] ++ indent1 ++ "None".toList ++ [ '\n' ]) ++
    [ '\n' ] ++ indent1 ++ quote3
  (doc, func_info1)

/-- The docstring-type dispatch of `DocstringExtension._generate_docstring`
after `parse` has run: `None` (no docstring produced) unless
`func_info.has_info` holds and the style is recognised. -/
def generate_docstring_core (doc_type : List Char) (func_info : FunctionInfo)
    (quote3 quote3_other : List Char) : Option (List Char) :=
  if func_info.has_info then
    if doc_type = "one-line".toList then some quote3
    else if doc_type = "numpy".toList then
      some (generate_numpy_doc func_info quote3 quote3_other).1
    else none
  else none

/-! ### Definitions used to state the claims -/

/-- The segments determined by a list of cut positions: the text between
consecutive cuts, plus the trailing text after the last cut when it is
non-empty. -/
def segmentsF (text : List Char) : List Nat → Nat → List (List Char)
  | [], start => if start < text.length then [ text.drop start ] else []
  | p :: cuts, start => sliceN start p text :: segmentsF text cuts (p + 1)

/-- The top-level commas of a span: every comma position not enclosed by
a pair of any of the four delimiter maps; `none` when a delimiter scan
fails. -/
def topLevelCommas (args_text : List Char) : Option (List Nat) :=
  match find_quote_position args_text with
  | none => none
  | some pos_quote =>
    match find_bracket_position args_text '(' ')' pos_quote,
          find_bracket_position args_text '{' '}' pos_quote,
          find_bracket_position args_text '[' ']' pos_quote with
    | some pos_round, some pos_curly, some pos_square =>
      some ((charPosGo ',' args_text 0).filter
        (fun p => !enclosedComma pos_round pos_curly pos_square pos_quote p))
    | _, _, _ => none

/-- Position just after the last cut (`0` when there is no cut):
where the trailing segment starts. -/
def lastStartF : List Nat → Nat → Nat
  | [], start => start
  | p :: cuts, _ => lastStartF cuts (p + 1)

/-- Two position ranges are disjoint or strictly nested. -/
def okPair (p q : Nat × Nat) : Prop :=
  p.2 < q.1 ∨ q.2 < p.1 ∨ (p.1 < q.1 ∧ q.2 < p.2) ∨ (q.1 < p.1 ∧ p.2 < q.2)

/-- Shift every position pair by `k`. -/
def shiftPairs (k : Nat) (l : List (Nat × Nat)) : List (Nat × Nat) :=
  l.map (fun p => (p.1 + k, p.2 + k))

/-- Shift the open-string state of the quote scanner by `k`. -/
def shiftSt (k : Nat) : Option (Char × Nat) → Option (Char × Nat)
  | none => none
  | some ql => some (ql.1, ql.2 + k)

/-- Does `pat` occur as a contiguous substring of `l`? -/
def listIsInfixOf (pat l : List Char) : Bool :=
  (List.range (l.length + 1)).any (fun i => pat.isPrefixOf (l.drop i))

/-- Header of the receiver-dropping test. -/
def c1Header : List Char := "def foo(self, x):".toList

/-- Header whose parameter span has no closing parenthesis. -/
def c2Header : List Char := "def f(a, b:".toList

/-- Header whose signature has two arguments named `self`. -/
def c3Header : List Char := "def f(self,self):".toList

/-- Header whose first parameter is not the receiver. -/
def c3PureHeader : List Char := "def g(a, b):".toList

/-- Zero-argument, no-return-type header. -/
def c9Header : List Char := "def foo():".toList

/-- The span `a, b=[1,2], c={'x':1}, d: int = 3`. -/
def c5Span : List Char :=
  [ 'a', ',', ' ', 'b', '=', '[', '1', ',', '2', ']', ',', ' ', 'c', '=',
    '{', '\'', 'x', '\'', ':', '1', '}', ',', ' ', 'd', ':', ' ', 'i', 'n',
    't', ' ', '=', ' ', '3' ]

/-- The span `a, b` (witness input for the splitter claims). -/
def c6Span : List Char := "a, b".toList

/-- The span `a,` ending in a top-level comma: its trailing substring
after the last split point is empty. -/
def c6TrailSpan : List Char := "a,".toList

/-- The raw argument `arg1: int = 5`. -/
def c4ArgA : List Char := "arg1: int = 5".toList

/-- The raw argument `arg2='a:b'`. -/
def c4ArgB : List Char := [ 'a', 'r', 'g', '2', '=', '\'', 'a', ':', 'b', '\'' ]

/-- The value text `'a:b'`. -/
def c4ValB : List Char := [ '\'', 'a', ':', 'b', '\'' ]

/-- Triple double quote. -/
def tripleDouble : List Char := [ '"', '"', '"' ]

/-- Triple single quote. -/
def tripleSingle : List Char := [ '\'', '\'', '\'' ]

/-! ### Basic lemmas about the classifier and `parse` -/

theorem satntv_lengths (l : List (List Char)) (f : FunctionInfo) :
    (split_arg_to_name_type_value l f).arg_name_list.length =
      f.arg_name_list.length + l.length ∧
    (split_arg_to_name_type_value l f).arg_type_list.length =
      f.arg_type_list.length + l.length ∧
    (split_arg_to_name_type_value l f).arg_value_list.length =
      f.arg_value_list.length + l.length := by
  induction l generalizing f with
  | nil => simp [split_arg_to_name_type_value]
  | cons a rest ih =>
    simp only [split_arg_to_name_type_value]
    have h := ih { f with arg_name_list := f.arg_name_list ++ [(classifyArg a).1]
                          arg_type_list := f.arg_type_list ++ [(classifyArg a).2.1]
                          arg_value_list := f.arg_value_list ++ [(classifyArg a).2.2] }
    simp at h
    simp [h]
    omega

theorem satntv_fields (l : List (List Char)) (f : FunctionInfo) :
    (split_arg_to_name_type_value l f).has_info = f.has_info ∧
    (split_arg_to_name_type_value l f).args_text = f.args_text := by
  induction l generalizing f with
  | nil => simp [split_arg_to_name_type_value]
  | cons a rest ih => simp [split_arg_to_name_type_value, ih]

/-! ### Claim C1 -/

/-- C1 counterexample: for the header `def foo(self, x):`, `parse` does
NOT produce the argument list `["x"]` — the receiver is still present
(and the second name keeps its leading space), so the claim that the
receiver is dropped during signature assembly is false. -/
theorem parse_receiver_kept_counterexample :
    (parse c1Header).arg_name_list ≠ [ "x".toList ] := by decide

/-- C1 (amended): for `def foo(self, x):`, `parse` returns the argument
list `["self", " x"]`; the receiver entry is removed only when the
numpy renderer runs, which deletes the leading `self` triple from the
signature's lists, leaving `[" x"]` (the leading space is kept). -/
theorem parse_receiver_dropped_only_at_render :
    (parse c1Header).arg_name_list = [ "self".toList, " x".toList ] ∧
    (generate_numpy_doc (parse c1Header) tripleDouble tripleSingle).2.arg_name_list =
      [ " x".toList ] := by decide

/-! ### Claim C2 -/

/-- C2 counterexample: for the unbalanced header `def f(a, b:` (the
spec's own example) `parse` succeeds: `rfind(')')` returns `-1`, the
slice `text[6:-1]` silently drops the final character, and the parse
reports `has_info = True` with arguments `a` and ` b`. -/
theorem parse_unbalanced_header_counterexample :
    (parse c2Header).has_info = true ∧
    (parse c2Header).arg_name_list = [ "a".toList, " b".toList ] := by decide

/-- C2 (amended): `parse` never raises (it is a total function here) and
reports `has_info = true` exactly when the header starts with a
definition keyword and the delimiter scans over the extracted argument
span succeed; a missing closing parenthesis is not itself a failure
(the span is taken up to the second-to-last character instead).
Rendering a signature whose `has_info` is false produces no docstring
(`none`, the "no docstring produced" sentinel). -/
theorem parse_shape (text : List Char) (h : is_start_of_function text = true) :
    ∃ (a : List Char) (n : Int) (rt : Option (List Char)),
      parse text =
        match split_args_text_to_list a with
        | none => { initInfo with n_indent := n, return_type := rt, args_text := a }
        | some args_list =>
          split_arg_to_name_type_value args_list
            { initInfo with n_indent := n, return_type := rt, args_text := a,
                            has_info := true } := by
  simp only [parse, h, Bool.not_true, Bool.false_eq_true, if_false]
  exact ⟨_, _, _, rfl⟩

theorem parse_has_info_iff_splitter_succeeds :
    (∀ text : List Char,
      (parse text).has_info = true ↔
        (is_start_of_function text = true ∧
         (split_args_text_to_list (parse text).args_text).isSome = true)) ∧
    (∀ (doc_type : List Char) (f : FunctionInfo) (q3 q3o : List Char),
      generate_docstring_core doc_type { f with has_info := false } q3 q3o = none) := by
  constructor
  · intro text
    by_cases h : is_start_of_function text
    · obtain ⟨a, n, rt, hp⟩ := parse_shape text h
      rw [hp]
      cases hs : split_args_text_to_list a with
      | none => simp [hs, h, initInfo]
      | some args_list => simp [hs, h, initInfo, satntv_fields]
    · simp only [parse]
      rw [if_pos (by simp [h])]
      simp [initInfo, h]
  · intro doc_type f q3 q3o
    simp [generate_docstring_core]

/-! ### Claim C3 -/

/-- C3 counterexample: rendering is NOT free of effects on the
signature.  For the parsed signature of `def f(self,self):` the
renderer's `del` statements change the argument lists in place, and a
second rendering of the (mutated) signature produces different
scaffold text than the first. -/
theorem render_mutates_signature_counterexample :
    (generate_numpy_doc (parse c3Header) tripleDouble tripleSingle).2.arg_name_list ≠
      (parse c3Header).arg_name_list ∧
    (generate_numpy_doc
        ((generate_numpy_doc (parse c3Header) tripleDouble tripleSingle).2)
        tripleDouble tripleSingle).1 ≠
      (generate_numpy_doc (parse c3Header) tripleDouble tripleSingle).1 := by
  decide

/-- C3 (amended): rendering leaves every field of the signature
unchanged — and hence rendering twice yields the same scaffold — for
every signature whose first argument name is not exactly `self`; when
the first argument is `self`, the renderer deletes the first entry of
the three argument lists in place, so a second rendering can differ. -/
theorem render_pure_when_no_receiver (f : FunctionInfo) (q3 q3o : List Char)
    (h : f.arg_name_list.head? ≠ some ( "self".toList)) :
    (generate_numpy_doc f q3 q3o).2 = f ∧
    (generate_numpy_doc ((generate_numpy_doc f q3 q3o).2) q3 q3o).1 =
      (generate_numpy_doc f q3 q3o).1 := by
  have h2 : (generate_numpy_doc f q3 q3o).2 = f := by
    have hne : f.arg_name_list.head? ≠ some [ 's', 'e', 'l', 'f' ] := by
      simpa using h
    simp [generate_numpy_doc, hne]
  exact ⟨h2, by rw [h2]⟩

/-- C3 witness: the frame property at the parsed signature of
`def g(a, b):`. -/
theorem render_pure_when_no_receiver_witness :
    (generate_numpy_doc (parse c3PureHeader) tripleDouble tripleSingle).2 =
      parse c3PureHeader ∧
    (generate_numpy_doc
        ((generate_numpy_doc (parse c3PureHeader) tripleDouble tripleSingle).2)
        tripleDouble tripleSingle).1 =
      (generate_numpy_doc (parse c3PureHeader) tripleDouble tripleSingle).1 :=
  render_pure_when_no_receiver (parse c3PureHeader) tripleDouble tripleSingle
    (by decide)

/-! ### Claim C4 -/

/-- C4: the colon/equals tie-break of the classifier.  Whenever an
equals sign exists and the first colon (if any) does not occur before
it, the argument gets no type, its name is the (stripped) text before
the equals and its value is the (stripped) text after the equals, any
colon kept verbatim.  In particular `arg1: int = 5` classifies as
name `arg1`, type `int`, value `5`, and `arg2='a:b'` classifies as
name `arg2`, no type, value `'a:b'`. -/
theorem classifier_equals_tiebreak :
    classifyArg c4ArgA = ( "arg1".toList, some ( "int".toList), some ( "5".toList)) ∧
    classifyArg c4ArgB = ( "arg2".toList, none, some c4ValB) ∧
    (∀ (arg : List Char) (e : Nat),
      findCharIdx '=' arg = some e →
      (∀ c, findCharIdx ':' arg = some c → e ≤ c) →
      classifyArg arg =
        (stripF (sliceN 0 e arg), none, some (stripF (arg.drop (e + 1))))) := by
  refine ⟨by decide, by decide, ?_⟩
  intro arg e he hc
  cases hcolon : findCharIdx ':' arg with
  | none => simp [classifyArg, he, hcolon]
  | some c =>
    have hec : e ≤ c := hc c hcolon
    simp [classifyArg, he, hcolon, Nat.not_lt.mpr hec]

/-- C4 witness: the tie-break rule applied to `arg2='a:b'` (equals at
position 4, colon at position 7). -/
theorem classifier_equals_tiebreak_witness :
    classifyArg c4ArgB =
      (stripF (sliceN 0 4 c4ArgB), none, some (stripF (c4ArgB.drop 5))) :=
  classifier_equals_tiebreak.2.2 c4ArgB 4 (by decide)
    (fun c hc => by
      have h7 : findCharIdx ':' c4ArgB = some 7 := by decide
      rw [h7] at hc
      injection hc with hec
      omega)

/-! ### Claim C9 -/

/-- C9 counterexample: rendering the zero-argument, no-return signature
of `def foo():` produces a scaffold whose Returns section reads `None`
but contains NO description placeholder at all — the `[description]`
line is emitted only in the declared-return-type branch. -/
theorem render_returns_none_no_placeholder_counterexample :
    (parse c9Header).arg_name_list = [] ∧
    (parse c9Header).return_type = none ∧
    listIsInfixOf ( "None".toList)
      (generate_numpy_doc (parse c9Header) tripleDouble tripleSingle).1 = true ∧
    listIsInfixOf ( "[description]".toList)
      (generate_numpy_doc (parse c9Header) tripleDouble tripleSingle).1 = false := by
  decide

/-- C9 (amended): for every signature whose post-filter argument list is
empty (no arguments, or only the receiver) and whose return type is
absent (or empty, which Python treats as falsy), the numpy scaffold is
exactly: a blank line, a Returns header, the literal `None` with no
description placeholder, and a closing line re-emitting the triple
quote that triggered the docstring; no Parameters section occurs. -/
theorem render_empty_args_no_return_scaffold (f : FunctionInfo) (q3 q3o : List Char)
    (h : f.arg_name_list = [] ∨ f.arg_name_list = [ [ 's', 'e', 'l', 'f' ] ])
    (hrt : optTruthy f.return_type = false) :
    (generate_numpy_doc f q3 q3o).1 =
      [ '\n', '\n' ] ++ List.replicate (4 + f.n_indent).toNat ' ' ++ "Returns".toList ++
      [ '\n' ] ++ List.replicate (4 + f.n_indent).toNat ' ' ++ "-------".toList ++
      [ '\n' ] ++ List.replicate (4 + f.n_indent).toNat ' ' ++ "None".toList ++
      [ '\n', '\n' ] ++ List.replicate (4 + f.n_indent).toNat ' ' ++ q3 := by
  rcases h with h | h <;> simp [generate_numpy_doc, h, hrt, numpyArgText]

/-- C9 witness: the scaffold for `def foo():` with the `"""` trigger. -/
theorem render_empty_args_no_return_scaffold_witness :
    (generate_numpy_doc (parse c9Header) tripleDouble tripleSingle).1 =
      [ '\n', '\n' ] ++ List.replicate (4 + (parse c9Header).n_indent).toNat ' ' ++
      "Returns".toList ++
      [ '\n' ] ++ List.replicate (4 + (parse c9Header).n_indent).toNat ' ' ++
      "-------".toList ++
      [ '\n' ] ++ List.replicate (4 + (parse c9Header).n_indent).toNat ' ' ++
      "None".toList ++
      [ '\n', '\n' ] ++ List.replicate (4 + (parse c9Header).n_indent).toNat ' ' ++
      tripleDouble :=
  render_empty_args_no_return_scaffold (parse c9Header) tripleDouble tripleSingle
    (Or.inl (by decide)) (by decide)

/-! ### Claim C10 -/

/-- C10: after every call to `parse` the three result lists
`arg_name_list`, `arg_type_list` and `arg_value_list` have equal
length (one entry of each per raw segment), whether or not `has_info`
was set. -/
theorem parse_arg_lists_equal_length (text : List Char) :
    (parse text).arg_name_list.length = (parse text).arg_type_list.length ∧
    (parse text).arg_type_list.length = (parse text).arg_value_list.length := by
  by_cases h : is_start_of_function text
  · obtain ⟨a, n, rt, hp⟩ := parse_shape text h
    rw [hp]
    cases hs : split_args_text_to_list a with
    | none => simp [initInfo]
    | some args_list =>
      have h1 := satntv_lengths args_list
        { initInfo with n_indent := n, return_type := rt, args_text := a,
                        has_info := true }
      simp [initInfo] at h1 ⊢
      omega
  · simp only [parse]
    rw [if_pos (by simp [h])]
    simp [initInfo]

/-! ### Characterisation of the splitter (claims C5–C7) -/

theorem splitArgsGo_eq_segments (text : List Char) (pr pc ps pq : List (Nat × Nat)) :
    ∀ (cuts : List Nat) (start : Nat) (acc : List (List Char)),
      splitArgsGo text pr pc ps pq cuts start acc =
        acc ++ segmentsF text (cuts.filter (fun p => !enclosedComma pr pc ps pq p)) start := by
  intro cuts
  induction cuts with
  | nil =>
    intro start acc
    simp only [splitArgsGo, segmentsF, List.filter]
    split <;> simp
  | cons p rest ih =>
    intro start acc
    by_cases hp : enclosedComma pr pc ps pq p
    · simp [splitArgsGo, hp, ih]
    · simp [splitArgsGo, hp, ih, segmentsF]

theorem split_eq_topLevel (args_text : List Char) :
    split_args_text_to_list args_text =
      (topLevelCommas args_text).map (fun cs => segmentsF args_text cs 0) := by
  unfold split_args_text_to_list topLevelCommas
  cases find_quote_position args_text with
  | none => rfl
  | some pq =>
    cases hr : find_bracket_position args_text '(' ')' pq <;>
      cases hc : find_bracket_position args_text '{' '}' pq <;>
      cases hq : find_bracket_position args_text '[' ']' pq <;>
      simp [hr, hc, hq, splitArgsGo_eq_segments]

theorem segmentsF_getLast (text : List Char) :
    ∀ (cuts : List Nat) (start : Nat),
      text.drop (lastStartF cuts start) ≠ [] →
      (segmentsF text cuts start).getLast? = some (text.drop (lastStartF cuts start)) := by
  intro cuts
  induction cuts with
  | nil =>
    intro start h
    simp only [lastStartF] at h ⊢
    have hlt : start < text.length := by
      by_contra hge
      exact h (List.drop_eq_nil_of_le (by omega))
    simp [segmentsF, hlt]
  | cons p rest ih =>
    intro start h
    simp only [lastStartF] at h ⊢
    have hrec := ih (p + 1) h
    cases hseg : segmentsF text rest (p + 1) with
    | nil => rw [hseg] at hrec; simp at hrec
    | cons s ss =>
      rw [hseg] at hrec
      simp only [segmentsF, hseg, List.getLast?_cons_cons]
      exact hrec

/-! ### Claim C5 -/

/-- C5: the splitter cuts exactly at the top-level commas — commas not
enclosed by any pair of the four delimiter maps — and on the span
`a, b=[1,2], c={'x':1}, d: int = 3` it produces exactly the four
top-level segments, none split inside the bracketed or braced
defaults. -/
theorem splitter_splits_only_at_top_level_commas :
    (∀ args_text : List Char,
      split_args_text_to_list args_text =
        (topLevelCommas args_text).map (fun cs => segmentsF args_text cs 0)) ∧
    split_args_text_to_list c5Span =
      some [ [ 'a' ],
             [ ' ', 'b', '=', '[', '1', ',', '2', ']' ],
             [ ' ', 'c', '=', '{', '\'', 'x', '\'', ':', '1', '}' ],
             [ ' ', 'd', ':', ' ', 'i', 'n', 't', ' ', '=', ' ', '3' ] ] :=
  ⟨split_eq_topLevel, by decide⟩

/-! ### Claim C6 -/

/-- C6 counterexample: the trailing substring after the last split
point is NOT always included.  On the span `a,` all delimiter scans
succeed, the last split point is the comma at position 1, the trailing
substring after it is empty, and the source's
`if idx_arg_start < len(args_text)` guard drops it: the output is
exactly `["a"]`, which does not contain the empty segment. -/
theorem splitter_empty_trailing_dropped_counterexample :
    split_args_text_to_list c6TrailSpan = some [ [ 'a' ] ] ∧
    topLevelCommas c6TrailSpan = some [ 1 ] ∧
    c6TrailSpan.drop (lastStartF [ 1 ] 0) = ([] : List Char) ∧
    ([] : List Char) ∉ [ [ 'a' ] ] := by decide

/-- C6 (amended): whenever all delimiter scans succeed, the trailing
substring after the last split point is included as the final segment
when it is NON-EMPTY; when it is empty (the span ends in a top-level
comma) it is dropped rather than emitted as an empty argument, and the
empty overall span yields zero arguments rather than one empty
argument. -/
theorem splitter_trailing_segment_included (args_text : List Char)
    (l : List (List Char))
    (hs : split_args_text_to_list args_text = some l) :
    (args_text = [] → l = []) ∧
    (∀ cs, topLevelCommas args_text = some cs →
      args_text.drop (lastStartF cs 0) ≠ [] →
      l.getLast? = some (args_text.drop (lastStartF cs 0))) := by
  rw [split_eq_topLevel] at hs
  cases htl : topLevelCommas args_text with
  | none => rw [htl] at hs; simp at hs
  | some cs0 =>
    rw [htl] at hs
    have hs' : segmentsF args_text cs0 0 = l := by simpa using hs
    constructor
    · intro hempty
      subst hempty
      have hcs0 : cs0 = [] := by
        have h0 : topLevelCommas ([] : List Char) = some [] := by decide
        rw [h0] at htl
        exact (Option.some_inj.mp htl).symm
      subst hcs0
      simpa [segmentsF] using hs'.symm
    · intro cs hcs htrail
      have hcseq : cs0 = cs := Option.some_inj.mp hcs
      subst hcseq
      rw [← hs']
      exact segmentsF_getLast args_text cs0 0 htrail

/-- C6 witness: on the span `a, b` the trailing segment ` b` is the
last element of the splitter's output. -/
theorem splitter_trailing_segment_included_witness :
    ([ [ 'a' ], [ ' ', 'b' ] ] : List (List Char)).getLast? =
      some (c6Span.drop (lastStartF [ 1 ] 0)) :=
  (splitter_trailing_segment_included c6Span [ [ 'a' ], [ ' ', 'b' ] ]
      (by decide)).2 [ 1 ] (by decide) (by decide)

/-! ### Claim C8 -/

theorem fbpCore_inv (bl br : Char) (pq : List (Nat × Nat)) :
    ∀ (xs : List Char) (i : Nat) (stack : List Nat) (acc : List (Nat × Nat))
      (st' : List Nat) (acc' : List (Nat × Nat)),
      fbpCore bl br pq xs i stack acc = some (st', acc') →
      stack.Pairwise (· > ·) →
      (∀ s ∈ stack, s < i) →
      (∀ p ∈ acc, p.1 < p.2 ∧ p.2 < i) →
      (∀ s ∈ stack, ∀ p ∈ acc, s < p.1 ∨ p.2 < s) →
      acc.Pairwise okPair →
      (acc.map Prod.snd).Pairwise (· < ·) →
      (∀ p ∈ acc', p.1 < p.2) ∧ acc'.Pairwise okPair ∧
        (acc'.map Prod.snd).Pairwise (· < ·) := by
  intro xs
  induction xs with
  | nil =>
    intro i stack acc st' acc' heq hps hlt hacc hsa hok hsnd
    simp only [fbpCore, Option.some_inj] at heq
    have h2 : acc = acc' := congrArg Prod.snd heq
    subst h2
    exact ⟨fun p hp => (hacc p hp).1, hok, hsnd⟩
  | cons c rest ih =>
    intro i stack acc st' acc' heq hps hlt hacc hsa hok hsnd
    simp only [fbpCore] at heq
    by_cases h1 : (c == bl && !is_char_in_pairs i pq) = true
    · rw [if_pos h1] at heq
      refine ih (i + 1) (i :: stack) acc st' acc' heq ?_ ?_ ?_ ?_ hok hsnd
      · exact List.pairwise_cons.mpr ⟨fun s hs => hlt s hs, hps⟩
      · intro s hs
        rcases List.mem_cons.mp hs with h | h
        · omega
        · have := hlt s h; omega
      · intro p hp
        exact ⟨(hacc p hp).1, by have := (hacc p hp).2; omega⟩
      · intro s hs p hp
        rcases List.mem_cons.mp hs with h | h
        · subst h; right; exact (hacc p hp).2
        · exact hsa s h p hp
    · rw [if_neg h1] at heq
      by_cases h2 : (c == br && !is_char_in_pairs i pq) = true
      · rw [if_pos h2] at heq
        cases stack with
        | nil => simp at heq
        | cons top s =>
          have hpst := List.pairwise_cons.mp hps
          refine ih (i + 1) s (acc ++ [(top, i)]) st' acc' heq hpst.2 ?_ ?_ ?_ ?_ ?_
          · intro x hx
            have := hlt x (List.mem_cons_of_mem _ hx); omega
          · intro p hp
            rcases List.mem_append.mp hp with h | h
            · have := hacc p h; exact ⟨this.1, by omega⟩
            · simp only [List.mem_singleton] at h
              subst h
              exact ⟨hlt top (List.mem_cons_self _ _), by omega⟩
          · intro x hx p hp
            rcases List.mem_append.mp hp with h | h
            · exact hsa x (List.mem_cons_of_mem _ hx) p h
            · simp only [List.mem_singleton] at h
              subst h
              left
              exact hpst.1 x hx
          · refine List.pairwise_append.mpr ⟨hok, List.pairwise_singleton _ _, ?_⟩
            intro p hp q hq
            simp only [List.mem_singleton] at hq
            subst hq
            rcases hsa top (List.mem_cons_self _ _) p hp with h | h
            · right; right; right; exact ⟨h, (hacc p hp).2⟩
            · left; exact h
          · rw [List.map_append]
            refine List.pairwise_append.mpr ⟨hsnd, by simp, ?_⟩
            intro y hy z hz
            simp only [List.map_cons, List.map_nil, List.mem_singleton] at hz
            subst hz
            simp only [List.mem_map] at hy
            obtain ⟨p, hp, rfl⟩ := hy
            exact (hacc p hp).2
      · rw [if_neg h2] at heq
        refine ih (i + 1) stack acc st' acc' heq hps ?_ ?_ hsa hok hsnd
        · intro s hs; have := hlt s hs; omega
        · intro p hp
          exact ⟨(hacc p hp).1, by have := (hacc p hp).2; omega⟩

/-- C8: for every text on which the bracket scan succeeds, the pair map
has every opening position strictly below its closing position, all
closing positions distinct, and no two pairs partially overlapping
(any two ranges are disjoint or strictly nested). -/
theorem bracket_pairs_wellformed (text : List Char) (bl br : Char)
    (pq : List (Nat × Nat)) (res : List (Nat × Nat))
    (h : find_bracket_position text bl br pq = some res) :
    (∀ p ∈ res, p.1 < p.2) ∧ (res.map Prod.snd).Nodup ∧ res.Pairwise okPair := by
  unfold find_bracket_position at h
  cases hcore : fbpCore bl br pq text 0 [] [] with
  | none => rw [hcore] at h; simp at h
  | some pr =>
    obtain ⟨stack, acc⟩ := pr
    rw [hcore] at h
    by_cases hst : stack.isEmpty
    · simp only [hst, if_true] at h
      have hres : acc = res := Option.some_inj.mp h
      obtain ⟨g1, g2, g3⟩ := fbpCore_inv bl br pq text 0 [] [] stack acc hcore
        (by simp) (by simp) (by simp) (by simp) (by simp) (by simp)
      subst hres
      exact ⟨g1, g3.imp Nat.ne_of_lt, g2⟩
    · simp only [hst, if_false] at h
      exact absurd h (by simp)

/-- C8 witness: the invariant on the round-bracket map of `(a[b])`. -/
theorem bracket_pairs_wellformed_witness :
    (∀ p ∈ [ ((0 : Nat), (5 : Nat)) ], p.1 < p.2) ∧
    (([ ((0 : Nat), (5 : Nat)) ].map Prod.snd).Nodup) ∧
    ([ ((0 : Nat), (5 : Nat)) ].Pairwise okPair) :=
  bracket_pairs_wellformed ( "(a[b])".toList) '(' ')' [] [ (0, 5) ] (by decide)

/-! ### Locality theory for the quote scanner (towards claim C7) -/

theorem bool_eq_of_iff {a b : Bool} (h : a = true ↔ b = true) : a = b := by
  cases a <;> cases b <;> simp_all

theorem inPairs_true_iff (x : Nat) (pairs : List (Nat × Nat)) :
    is_char_in_pairs x pairs = true ↔ ∃ p ∈ pairs, p.1 < x ∧ x < p.2 := by
  simp [is_char_in_pairs, List.any_eq_true]

theorem get?_some_lt {l : List Char} {i : Nat} {c : Char}
    (h : l.get? i = some c) : i < l.length := by
  by_contra hge
  rw [List.get?_eq_none.mpr (by omega)] at h
  exact absurd h (by simp)

theorem fqpCore_append (xs ys : List Char) :
    ∀ (i : Nat) (prev : Char) (st : Option (Char × Nat)) (acc : List (Nat × Nat)),
      fqpCore (xs ++ ys) i prev st acc =
        fqpCore ys (i + xs.length) (xs.getLastD prev)
          (fqpCore xs i prev st acc).1 (fqpCore xs i prev st acc).2 := by
  induction xs with
  | nil => intro i prev st acc; simp [fqpCore]
  | cons c rest ih =>
    intro i prev st acc
    match st with
    | none =>
      simp only [List.cons_append, fqpCore, List.append_eq]
      by_cases h : (c == '\'' || c == '"') = true
      · rw [if_pos h, if_pos h, ih]
        rw [List.getLastD_cons]
        congr 1
        · simp; omega
      · rw [if_neg h, if_neg h, ih]
        rw [List.getLastD_cons]
        congr 1
        · simp; omega
    | some ql =>
      obtain ⟨q, l⟩ := ql
      simp only [List.cons_append, fqpCore, List.append_eq]
      by_cases h : (c == q && prev != '\\') = true
      · rw [if_pos h, if_pos h, ih]
        rw [List.getLastD_cons]
        congr 1
        · simp; omega
      · rw [if_neg h, if_neg h, ih]
        rw [List.getLastD_cons]
        congr 1
        · simp; omega

theorem fqpCore_acc (xs : List Char) :
    ∀ (i : Nat) (prev : Char) (st : Option (Char × Nat)) (acc : List (Nat × Nat)),
      fqpCore xs i prev st acc =
        ((fqpCore xs i prev st []).1, acc ++ (fqpCore xs i prev st []).2) := by
  induction xs with
  | nil => intro i prev st acc; simp [fqpCore]
  | cons c rest ih =>
    intro i prev st acc
    match st with
    | none =>
      simp only [fqpCore]
      by_cases h : (c == '\'' || c == '"') = true
      · rw [if_pos h, if_pos h]; exact ih (i + 1) c (some (c, i)) acc
      · rw [if_neg h, if_neg h]; exact ih (i + 1) c none acc
    | some ql =>
      obtain ⟨q, l⟩ := ql
      simp only [fqpCore]
      by_cases h : (c == q && prev != '\\') = true
      · rw [if_pos h, if_pos h]
        rw [ih (i + 1) c none (acc ++ [(l, i)]), ih (i + 1) c none ([] ++ [(l, i)])]
        simp
      · rw [if_neg h, if_neg h]; exact ih (i + 1) c (some (q, l)) acc

theorem fqpCore_prev_irrel (xs : List Char) (i : Nat) (p1 p2 : Char)
    (acc : List (Nat × Nat)) :
    fqpCore xs i p1 none acc = fqpCore xs i p2 none acc := by
  cases xs with
  | nil => rfl
  | cons c rest => simp only [fqpCore]

theorem fqpCore_shift (xs : List Char) :
    ∀ (i k : Nat) (prev : Char) (st : Option (Char × Nat)) (acc : List (Nat × Nat)),
      fqpCore xs (i + k) prev (shiftSt k st) (shiftPairs k acc) =
        (shiftSt k (fqpCore xs i prev st acc).1,
         shiftPairs k (fqpCore xs i prev st acc).2) := by
  induction xs with
  | nil => intro i k prev st acc; simp [fqpCore]
  | cons c rest ih =>
    intro i k prev st acc
    match st with
    | none =>
      show fqpCore (c :: rest) (i + k) prev none (shiftPairs k acc) = _
      simp only [fqpCore]
      by_cases h : (c == '\'' || c == '"') = true
      · rw [if_pos h, if_pos h]
        have harith : i + k + 1 = i + 1 + k := by omega
        rw [harith]
        exact ih (i + 1) k c (some (c, i)) acc
      · rw [if_neg h, if_neg h]
        have harith : i + k + 1 = i + 1 + k := by omega
        rw [harith]
        exact ih (i + 1) k c none acc
    | some ql =>
      obtain ⟨q, l⟩ := ql
      show fqpCore (c :: rest) (i + k) prev (some (q, l + k)) (shiftPairs k acc) = _
      simp only [fqpCore]
      by_cases h : (c == q && prev != '\\') = true
      · rw [if_pos h, if_pos h]
        have harith : i + k + 1 = i + 1 + k := by omega
        rw [harith]
        have hsh : shiftPairs k acc ++ [(l + k, i + k)] =
            shiftPairs k (acc ++ [(l, i)]) := by
          simp [shiftPairs]
        rw [hsh]
        exact ih (i + 1) k c none (acc ++ [(l, i)])
      · rw [if_neg h, if_neg h]
        have harith : i + k + 1 = i + 1 + k := by omega
        rw [harith]
        exact ih (i + 1) k c (some (q, l)) acc

theorem fqpCore_master (T : List Char) :
    ∀ (xs : List Char) (i : Nat) (prev : Char) (st : Option (Char × Nat))
      (acc : List (Nat × Nat)),
      (∀ j, j < xs.length → T.get? (i + j) = xs.get? j) →
      (∀ q l, st = some (q, l) → l < i ∧ T.get? l = some q ∧ (q = '\'' ∨ q = '"')) →
      (∀ p ∈ acc, p.1 < p.2 ∧ p.2 < i ∧
        ∃ q, (q = '\'' ∨ q = '"') ∧ T.get? p.1 = some q ∧ T.get? p.2 = some q) →
      (∀ q l, (fqpCore xs i prev st acc).1 = some (q, l) →
        l < i + xs.length ∧ T.get? l = some q ∧ (q = '\'' ∨ q = '"')) ∧
      (∀ p ∈ (fqpCore xs i prev st acc).2, p.1 < p.2 ∧ p.2 < i + xs.length ∧
        ∃ q, (q = '\'' ∨ q = '"') ∧ T.get? p.1 = some q ∧ T.get? p.2 = some q) := by
  intro xs
  induction xs with
  | nil =>
    intro i prev st acc hchar hst hacc
    simp only [fqpCore, List.length_nil, Nat.add_zero]
    exact ⟨hst, hacc⟩
  | cons c rest ih =>
    intro i prev st acc hchar hst hacc
    have hc0 : T.get? i = some c := by simpa using hchar 0 (by simp)
    have hcharr : ∀ j, j < rest.length → T.get? (i + 1 + j) = rest.get? j := by
      intro j hj
      have h2 := hchar (j + 1) (by simp; omega)
      rw [show i + (j + 1) = i + 1 + j by omega] at h2
      simpa using h2
    have hlen : i + (c :: rest).length = i + 1 + rest.length := by simp; omega
    rw [hlen]
    match st with
    | none =>
      simp only [fqpCore]
      by_cases h : (c == '\'' || c == '"') = true
      · rw [if_pos h]
        have hcq : c = '\'' ∨ c = '"' := by
          rcases Bool.or_eq_true_iff.mp h with h1 | h1
          · exact Or.inl (by simpa using h1)
          · exact Or.inr (by simpa using h1)
        refine ih (i + 1) c (some (c, i)) acc hcharr ?_ ?_
        · intro q l hql
          rw [Option.some_inj] at hql
          injection hql with hq hl
          subst hq; subst hl
          exact ⟨by omega, hc0, hcq⟩
        · intro p hp
          obtain ⟨g1, g2, g3⟩ := hacc p hp
          exact ⟨g1, by omega, g3⟩
      · rw [if_neg h]
        refine ih (i + 1) c none acc hcharr (by simp) ?_
        intro p hp
        obtain ⟨g1, g2, g3⟩ := hacc p hp
        exact ⟨g1, by omega, g3⟩
    | some ql =>
      obtain ⟨q0, l0⟩ := ql
      obtain ⟨hl0, hcl0, hq0⟩ := hst q0 l0 rfl
      simp only [fqpCore]
      by_cases h : (c == q0 && prev != '\\') = true
      · rw [if_pos h]
        have hcq : c = q0 := by
          have := (Bool.and_eq_true_iff.mp h).1
          simpa using this
        refine ih (i + 1) c none (acc ++ [(l0, i)]) hcharr (by simp) ?_
        intro p hp
        rcases List.mem_append.mp hp with hmem | hmem
        · obtain ⟨g1, g2, g3⟩ := hacc p hmem
          exact ⟨g1, by omega, g3⟩
        · simp only [List.mem_singleton] at hmem
          subst hmem
          exact ⟨hl0, by omega, q0, hq0, hcl0, by rw [hcq] at hc0; exact hc0⟩
      · rw [if_neg h]
        refine ih (i + 1) c (some (q0, l0)) acc hcharr ?_ ?_
        · intro q l hql
          rw [Option.some_inj] at hql
          injection hql with hq hl
          subst hq; subst hl
          exact ⟨by omega, hcl0, hq0⟩
        · intro p hp
          obtain ⟨g1, g2, g3⟩ := hacc p hp
          exact ⟨g1, by omega, g3⟩

theorem fqpCore_lower (xs : List Char) :
    ∀ (i lo : Nat) (prev : Char) (st : Option (Char × Nat)) (acc : List (Nat × Nat)),
      lo ≤ i →
      (∀ q l, st = some (q, l) → lo ≤ l) →
      (∀ p ∈ acc, lo ≤ p.1) →
      ∀ p ∈ (fqpCore xs i prev st acc).2, lo ≤ p.1 := by
  induction xs with
  | nil => intro i lo prev st acc _ _ hacc; simpa [fqpCore] using hacc
  | cons c rest ih =>
    intro i lo prev st acc hlo hst hacc
    match st with
    | none =>
      simp only [fqpCore]
      by_cases h : (c == '\'' || c == '"') = true
      · rw [if_pos h]
        exact ih (i + 1) lo c (some (c, i)) acc (by omega)
          (fun q l hql => by
            rw [Option.some_inj] at hql
            injection hql with h1 h2
            omega) hacc
      · rw [if_neg h]
        exact ih (i + 1) lo c none acc (by omega) (by simp) hacc
    | some ql =>
      obtain ⟨q0, l0⟩ := ql
      have hl0 : lo ≤ l0 := hst q0 l0 rfl
      simp only [fqpCore]
      by_cases h : (c == q0 && prev != '\\') = true
      · rw [if_pos h]
        refine ih (i + 1) lo c none (acc ++ [(l0, i)]) (by omega) (by simp) ?_
        intro p hp
        rcases List.mem_append.mp hp with hmem | hmem
        · exact hacc p hmem
        · simp only [List.mem_singleton] at hmem; subst hmem; exact hl0
      · rw [if_neg h]
        exact ih (i + 1) lo c (some (q0, l0)) acc (by omega)
          (fun q l hql => by
            rw [Option.some_inj] at hql
            injection hql with h1 h2
            omega) hacc

theorem fqpCore_open_closes (xs : List Char) :
    ∀ (i : Nat) (prev q : Char) (l : Nat) (acc : List (Nat × Nat)),
      (fqpCore xs i prev (some (q, l)) acc).1 = none →
      ∃ r, i ≤ r ∧ (l, r) ∈ (fqpCore xs i prev (some (q, l)) acc).2 := by
  induction xs with
  | nil => intro i prev q l acc h; simp [fqpCore] at h
  | cons c rest ih =>
    intro i prev q l acc h
    simp only [fqpCore] at h ⊢
    by_cases hcl : (c == q && prev != '\\') = true
    · rw [if_pos hcl] at h ⊢
      refine ⟨i, Nat.le_refl i, ?_⟩
      rw [fqpCore_acc]
      simp
    · rw [if_neg hcl] at h ⊢
      obtain ⟨r, hr, hmem⟩ := ih (i + 1) c q l acc h
      exact ⟨r, by omega, hmem⟩

theorem find_quote_position_eq (T : List Char) (P : List (Nat × Nat)) :
    find_quote_position T = some P ↔ fqpCore T 0 'x' none [] = (none, P) := by
  unfold find_quote_position
  cases hc : fqpCore T 0 'x' none [] with
  | mk st acc =>
    cases st with
    | none => simp [Prod.ext_iff]
    | some s => simp

theorem sliceN_length (a b : Nat) (T : List Char) (hbl : b ≤ T.length) :
    (sliceN a b T).length = b - a := by
  simp [sliceN, List.length_take, List.length_drop]
  omega

theorem drop_eq_slice_append (T : List Char) (a b : Nat) (hab : a ≤ b)
    (hbl : b ≤ T.length) :
    T.drop a = sliceN a b T ++ T.drop b := by
  unfold sliceN
  conv_lhs => rw [← List.take_append_drop b T]
  rw [List.drop_append_eq_append_drop]
  congr 1
  have h0 : a - (List.take b T).length = 0 := by
    simp [List.length_take]; omega
  rw [h0, List.drop_zero]

theorem take_add_slice (T : List Char) (a b : Nat) (hab : a ≤ b) :
    T.take a ++ sliceN a b T = T.take b := by
  unfold sliceN
  conv_rhs => rw [← List.take_append_drop a (T.take b)]
  congr 1
  rw [List.take_take, Nat.min_eq_left hab]

theorem sliceN_get? (a b : Nat) (T : List Char) (j : Nat) (hj : j < b - a) :
    (sliceN a b T).get? j = T.get? (a + j) := by
  unfold sliceN
  rw [List.get?_drop]
  exact List.get?_take (by omega)

theorem quote_open_at (T : List Char) (P : List (Nat × Nat))
    (hT : find_quote_position T = some P) (m : Nat) (hm : m ≤ T.length)
    (q : Char) (l : Nat)
    (hst : (fqpCore (T.take m) 0 'x' none []).1 = some (q, l)) :
    ∃ r, m ≤ r ∧ (l, r) ∈ P ∧ l < m ∧ T.get? l = some q ∧ q ≠ ',' := by
  have hfull := (find_quote_position_eq T P).mp hT
  have hlen : (T.take m).length = m := by simp [List.length_take]; omega
  have hsplit := fqpCore_append (T.take m) (T.drop m) 0 'x' none []
  rw [List.take_append_drop, hfull, hst, hlen, Nat.zero_add] at hsplit
  -- hsplit : (none, P) = fqpCore (T.drop m) m prev (some (q, l)) acc
  have hnone : (fqpCore (T.drop m) m ((T.take m).getLastD 'x') (some (q, l))
      (fqpCore (T.take m) 0 'x' none []).2).1 = none := by
    rw [← hsplit]
  obtain ⟨r, hr, hmem⟩ := fqpCore_open_closes (T.drop m) m
    ((T.take m).getLastD 'x') q l (fqpCore (T.take m) 0 'x' none []).2 hnone
  have hmemP : (l, r) ∈ P := by
    have : (fqpCore (T.drop m) m ((T.take m).getLastD 'x') (some (q, l))
        (fqpCore (T.take m) 0 'x' none []).2).2 = P := by rw [← hsplit]
    rw [this] at hmem
    exact hmem
  have hmaster := (fqpCore_master T (T.take m) 0 'x' none []
    (fun j hj => by
      rw [Nat.zero_add]
      exact (List.get?_take (by rw [hlen] at hj; exact hj)).symm)
    (by simp) (by simp)).1 q l hst
  rw [Nat.zero_add, hlen] at hmaster
  refine ⟨r, hr, hmemP, hmaster.1, hmaster.2.1, ?_⟩
  rcases hmaster.2.2 with h | h <;> subst h <;> decide

theorem quote_state_none (T : List Char) (P : List (Nat × Nat))
    (hT : find_quote_position T = some P) (m : Nat) (hm : m ≤ T.length)
    (hfree : m = 0 ∨ (1 ≤ m ∧ T.get? (m - 1) = some ',' ∧
      is_char_in_pairs (m - 1) P = false)) :
    (fqpCore (T.take m) 0 'x' none []).1 = none := by
  rcases hfree with h0 | ⟨h1, hcomma, hfreeP⟩
  · subst h0; simp [fqpCore]
  · cases hstc : (fqpCore (T.take m) 0 'x' none []).1 with
    | none => rfl
    | some ql =>
      obtain ⟨q, l⟩ := ql
      obtain ⟨r, hr, hmem, hlm, hchar, hq⟩ := quote_open_at T P hT m hm q l hstc
      have hlne : l ≠ m - 1 := by
        intro he
        rw [he, hcomma] at hchar
        injection hchar with h2
        exact hq h2.symm
      have htrue : is_char_in_pairs (m - 1) P = true := by
        rw [inPairs_true_iff]
        exact ⟨(l, r), hmem, by omega, by omega⟩
      rw [htrue] at hfreeP
      exact absurd hfreeP (by simp)

theorem quote_decompose (T : List Char) (P : List (Nat × Nat))
    (hT : find_quote_position T = some P) (a b : Nat)
    (hab : a ≤ b) (hbl : b ≤ T.length)
    (hsta : (fqpCore (T.take a) 0 'x' none []).1 = none)
    (hstb : (fqpCore (T.take b) 0 'x' none []).1 = none) :
    ∃ S A D, find_quote_position (sliceN a b T) = some S ∧
      P = A ++ shiftPairs a S ++ D ∧
      (∀ p ∈ A, p.2 < a) ∧ (∀ p ∈ S, p.2 < b - a) ∧ (∀ p ∈ D, b ≤ p.1) := by
  have hal : a ≤ T.length := le_trans hab hbl
  have hlena : (T.take a).length = a := by simp [List.length_take]; omega
  have hseglen : (sliceN a b T).length = b - a := sliceN_length a b T hbl
  -- abbreviations
  set seg := sliceN a b T with hsegdef
  set A := (fqpCore (T.take a) 0 'x' none []).2 with hAdef
  set prevA := (T.take a).getLastD 'x' with hprevAdef
  set S' := fqpCore seg 0 'x' none [] with hSdef
  -- the in-context scan of the segment
  have hshift : fqpCore seg a prevA none [] =
      (shiftSt a (fqpCore seg 0 prevA none []).1,
       shiftPairs a (fqpCore seg 0 prevA none []).2) := by
    have h0 := fqpCore_shift seg 0 a prevA none []
    rw [Nat.zero_add] at h0
    simpa [shiftSt, shiftPairs] using h0
  have hprev : fqpCore seg 0 prevA none [] = S' := fqpCore_prev_irrel seg 0 prevA 'x' []
  have e4 : fqpCore seg a prevA none A =
      (shiftSt a S'.1, A ++ shiftPairs a S'.2) := by
    rw [fqpCore_acc seg a prevA none A, hshift, hprev]
  -- relate to the scan of `T.take b`
  have e3 := fqpCore_append (T.take a) seg 0 'x' none []
  rw [take_add_slice T a b hab, hsta, hlena, Nat.zero_add] at e3
  -- the segment's own scan ends outside a string
  have hS1 : S'.1 = none := by
    have hfst := congrArg Prod.fst e3
    rw [hstb, e4] at hfst
    cases hcase : S'.1 with
    | none => rfl
    | some s =>
      rw [hcase] at hfst
      simp [shiftSt] at hfst
  have hsegscan : find_quote_position seg = some S'.2 := by
    unfold find_quote_position
    have hS : fqpCore seg 0 'x' none [] = (none, S'.2) := by
      rw [Prod.ext_iff]
      exact ⟨hS1, rfl⟩
    rw [hS]
  -- full decomposition of P
  have hfull := (find_quote_position_eq T P).mp hT
  have e1 := fqpCore_append (T.take a) (T.drop a) 0 'x' none []
  rw [List.take_append_drop, hfull, hsta, hlena, Nat.zero_add] at e1
  rw [drop_eq_slice_append T a b hab hbl] at e1
  rw [fqpCore_append seg (T.drop b) a prevA none A] at e1
  rw [e4, hseglen] at e1
  rw [show a + (b - a) = b by omega] at e1
  simp only [hS1, shiftSt] at e1
  rw [fqpCore_acc (T.drop b) b (seg.getLastD prevA) none (A ++ shiftPairs a S'.2)] at e1
  have hP : P = A ++ shiftPairs a S'.2 ++
      (fqpCore (T.drop b) b (seg.getLastD prevA) none []).2 := by
    have := congrArg Prod.snd e1
    simpa using this
  -- bounds
  have hAbound : ∀ p ∈ A, p.2 < a := by
    intro p hp
    have hm := (fqpCore_master T (T.take a) 0 'x' none []
      (fun j hj => by
        rw [Nat.zero_add]
        exact (List.get?_take (by rw [hlena] at hj; exact hj)).symm)
      (by simp) (by simp)).2 p hp
    rw [Nat.zero_add, hlena] at hm
    exact hm.2.1
  have hSbound : ∀ p ∈ S'.2, p.2 < b - a := by
    intro p hp
    have hm := (fqpCore_master seg seg 0 'x' none []
      (fun j hj => by rw [Nat.zero_add]) (by simp) (by simp)).2 p hp
    rw [Nat.zero_add, hseglen] at hm
    exact hm.2.1
  have hDbound : ∀ p ∈ (fqpCore (T.drop b) b (seg.getLastD prevA) none []).2,
      b ≤ p.1 := by
    intro p hp
    exact fqpCore_lower (T.drop b) b b (seg.getLastD prevA) none []
      (Nat.le_refl b) (by simp) (by simp) p hp
  exact ⟨S'.2, A, _, hsegscan, hP, hAbound, hSbound, hDbound⟩

/-! ### Locality theory for the bracket scanner -/

theorem fbpCore_append (bl br : Char) (pq : List (Nat × Nat)) (xs ys : List Char) :
    ∀ (i : Nat) (stack : List Nat) (acc : List (Nat × Nat)),
      fbpCore bl br pq (xs ++ ys) i stack acc =
        (fbpCore bl br pq xs i stack acc).bind
          (fun r => fbpCore bl br pq ys (i + xs.length) r.1 r.2) := by
  induction xs with
  | nil => intro i stack acc; simp [fbpCore]
  | cons c rest ih =>
    intro i stack acc
    have he : (i : Nat) + 1 + rest.length = i + (c :: rest).length := by simp; omega
    simp only [List.cons_append, fbpCore, List.append_eq]
    by_cases h1 : (c == bl && !is_char_in_pairs i pq) = true
    · rw [if_pos h1, if_pos h1, ih, he]
    · rw [if_neg h1, if_neg h1]
      by_cases h2 : (c == br && !is_char_in_pairs i pq) = true
      · rw [if_pos h2, if_pos h2]
        cases stack with
        | nil => simp
        | cons top s =>
          show fbpCore bl br pq (rest ++ ys) (i + 1) s (acc ++ [(top, i)]) =
            (fbpCore bl br pq rest (i + 1) s (acc ++ [(top, i)])).bind
              (fun r => fbpCore bl br pq ys (i + (c :: rest).length) r.1 r.2)
          rw [ih, he]
      · rw [if_neg h2, if_neg h2, ih, he]

theorem fbpCore_acc_eq (bl br : Char) (pq : List (Nat × Nat)) (xs : List Char) :
    ∀ (i : Nat) (stack : List Nat) (acc : List (Nat × Nat)),
      fbpCore bl br pq xs i stack acc =
        (fbpCore bl br pq xs i stack []).map (fun r => (r.1, acc ++ r.2)) := by
  induction xs with
  | nil => intro i stack acc; simp [fbpCore]
  | cons c rest ih =>
    intro i stack acc
    simp only [fbpCore]
    by_cases h1 : (c == bl && !is_char_in_pairs i pq) = true
    · rw [if_pos h1, if_pos h1]; exact ih (i + 1) (i :: stack) acc
    · rw [if_neg h1, if_neg h1]
      by_cases h2 : (c == br && !is_char_in_pairs i pq) = true
      · rw [if_pos h2, if_pos h2]
        cases stack with
        | nil => simp
        | cons top s =>
          show fbpCore bl br pq rest (i + 1) s (acc ++ [(top, i)]) =
            Option.map (fun r => (r.1, acc ++ r.2))
              (fbpCore bl br pq rest (i + 1) s ([] ++ [(top, i)]))
          rw [ih (i + 1) s (acc ++ [(top, i)]), ih (i + 1) s ([] ++ [(top, i)])]
          cases hN : fbpCore bl br pq rest (i + 1) s [] with
          | none => simp
          | some r => simp
      · rw [if_neg h2, if_neg h2]; exact ih (i + 1) stack acc

theorem fbpCore_shift (bl br : Char) (pq pq' : List (Nat × Nat)) (xs : List Char) :
    ∀ (i k : Nat) (stack : List Nat) (acc : List (Nat × Nat)),
      (∀ j, j < xs.length →
        is_char_in_pairs (i + k + j) pq = is_char_in_pairs (i + j) pq') →
      fbpCore bl br pq xs (i + k) (stack.map (· + k)) (shiftPairs k acc) =
        (fbpCore bl br pq' xs i stack acc).map
          (fun r => (r.1.map (· + k), shiftPairs k r.2)) := by
  induction xs with
  | nil => intro i k stack acc _; simp [fbpCore]
  | cons c rest ih =>
    intro i k stack acc hcorr
    have hc0 : is_char_in_pairs (i + k) pq = is_char_in_pairs i pq' := by
      simpa using hcorr 0 (by simp)
    have hcorr' : ∀ j, j < rest.length →
        is_char_in_pairs (i + 1 + k + j) pq = is_char_in_pairs (i + 1 + j) pq' := by
      intro j hj
      have h2 := hcorr (j + 1) (by simp; omega)
      rw [show i + k + (j + 1) = i + 1 + k + j by omega,
          show i + (j + 1) = i + 1 + j by omega] at h2
      exact h2
    have he : i + k + 1 = i + 1 + k := by omega
    simp only [fbpCore]
    rw [hc0]
    by_cases h1 : (c == bl && !is_char_in_pairs i pq') = true
    · rw [if_pos h1, if_pos h1, he]
      exact ih (i + 1) k (i :: stack) acc hcorr'
    · rw [if_neg h1, if_neg h1]
      by_cases h2 : (c == br && !is_char_in_pairs i pq') = true
      · rw [if_pos h2, if_pos h2]
        cases stack with
        | nil => simp
        | cons top s =>
          have hstep : shiftPairs k acc ++ [(top + k, i + k)] =
              shiftPairs k (acc ++ [(top, i)]) := by simp [shiftPairs]
          show fbpCore bl br pq rest (i + k + 1) (s.map (· + k))
              (shiftPairs k acc ++ [(top + k, i + k)]) = _
          rw [he, hstep]
          exact ih (i + 1) k s (acc ++ [(top, i)]) hcorr'
      · rw [if_neg h2, if_neg h2, he]
        exact ih (i + 1) k stack acc hcorr'

theorem fbpCore_master (T : List Char) (bl br : Char) (pq : List (Nat × Nat)) :
    ∀ (xs : List Char) (i : Nat) (stack : List Nat) (acc : List (Nat × Nat))
      (st' : List Nat) (acc' : List (Nat × Nat)),
      fbpCore bl br pq xs i stack acc = some (st', acc') →
      (∀ j, j < xs.length → T.get? (i + j) = xs.get? j) →
      (∀ s ∈ stack, s < i ∧ T.get? s = some bl) →
      (∀ p ∈ acc, p.1 < p.2 ∧ p.2 < i ∧ T.get? p.1 = some bl ∧
        T.get? p.2 = some br) →
      (∀ s ∈ st', s < i + xs.length ∧ T.get? s = some bl) ∧
      (∀ p ∈ acc', p.1 < p.2 ∧ p.2 < i + xs.length ∧ T.get? p.1 = some bl ∧
        T.get? p.2 = some br) := by
  intro xs
  induction xs with
  | nil =>
    intro i stack acc st' acc' heq hchar hstack hacc
    simp only [fbpCore, Option.some_inj] at heq
    have h1 : stack = st' := congrArg Prod.fst heq
    have h2 : acc = acc' := congrArg Prod.snd heq
    subst h1; subst h2
    simp only [List.length_nil, Nat.add_zero]
    exact ⟨hstack, hacc⟩
  | cons c rest ih =>
    intro i stack acc st' acc' heq hchar hstack hacc
    have hc0 : T.get? i = some c := by simpa using hchar 0 (by simp)
    have hcharr : ∀ j, j < rest.length → T.get? (i + 1 + j) = rest.get? j := by
      intro j hj
      have h2 := hchar (j + 1) (by simp; omega)
      rw [show i + (j + 1) = i + 1 + j by omega] at h2
      simpa using h2
    have hlen : i + (c :: rest).length = i + 1 + rest.length := by simp; omega
    rw [hlen]
    simp only [fbpCore] at heq
    by_cases h1 : (c == bl && !is_char_in_pairs i pq) = true
    · rw [if_pos h1] at heq
      have hcb : c = bl := by simpa using (Bool.and_eq_true_iff.mp h1).1
      refine ih (i + 1) (i :: stack) acc st' acc' heq hcharr ?_ ?_
      · intro s hs
        rcases List.mem_cons.mp hs with h | h
        · subst h; exact ⟨by omega, by rw [hcb] at hc0; exact hc0⟩
        · have := hstack s h; exact ⟨by omega, this.2⟩
      · intro p hp
        obtain ⟨g1, g2, g3, g4⟩ := hacc p hp
        exact ⟨g1, by omega, g3, g4⟩
    · rw [if_neg h1] at heq
      by_cases h2 : (c == br && !is_char_in_pairs i pq) = true
      · rw [if_pos h2] at heq
        have hcb : c = br := by simpa using (Bool.and_eq_true_iff.mp h2).1
        cases stack with
        | nil => simp at heq
        | cons top s =>
          obtain ⟨htl, htc⟩ := hstack top (List.mem_cons_self _ _)
          refine ih (i + 1) s (acc ++ [(top, i)]) st' acc' heq hcharr ?_ ?_
          · intro x hx
            have := hstack x (List.mem_cons_of_mem _ hx)
            exact ⟨by omega, this.2⟩
          · intro p hp
            rcases List.mem_append.mp hp with hmem | hmem
            · obtain ⟨g1, g2, g3, g4⟩ := hacc p hmem
              exact ⟨g1, by omega, g3, g4⟩
            · simp only [List.mem_singleton] at hmem
              subst hmem
              exact ⟨htl, by omega, htc, by rw [hcb] at hc0; exact hc0⟩
      · rw [if_neg h2] at heq
        refine ih (i + 1) stack acc st' acc' heq hcharr ?_ ?_
        · intro s hs
          have := hstack s hs
          exact ⟨by omega, this.2⟩
        · intro p hp
          obtain ⟨g1, g2, g3, g4⟩ := hacc p hp
          exact ⟨g1, by omega, g3, g4⟩

theorem fbpCore_lower (bl br : Char) (pq : List (Nat × Nat)) (xs : List Char) :
    ∀ (i lo : Nat) (stack : List Nat) (acc : List (Nat × Nat))
      (st' : List Nat) (acc' : List (Nat × Nat)),
      fbpCore bl br pq xs i stack acc = some (st', acc') →
      lo ≤ i →
      (∀ s ∈ stack, lo ≤ s) →
      (∀ p ∈ acc, lo ≤ p.1) →
      ∀ p ∈ acc', lo ≤ p.1 := by
  induction xs with
  | nil =>
    intro i lo stack acc st' acc' heq _ _ hacc
    simp only [fbpCore, Option.some_inj] at heq
    have h2 : acc = acc' := congrArg Prod.snd heq
    subst h2
    exact hacc
  | cons c rest ih =>
    intro i lo stack acc st' acc' heq hlo hstack hacc
    simp only [fbpCore] at heq
    by_cases h1 : (c == bl && !is_char_in_pairs i pq) = true
    · rw [if_pos h1] at heq
      refine ih (i + 1) lo (i :: stack) acc st' acc' heq (by omega) ?_ hacc
      intro s hs
      rcases List.mem_cons.mp hs with h | h
      · omega
      · exact hstack s h
    · rw [if_neg h1] at heq
      by_cases h2 : (c == br && !is_char_in_pairs i pq) = true
      · rw [if_pos h2] at heq
        cases stack with
        | nil => simp at heq
        | cons top s =>
          refine ih (i + 1) lo s (acc ++ [(top, i)]) st' acc' heq (by omega)
            (fun x hx => hstack x (List.mem_cons_of_mem _ hx)) ?_
          intro p hp
          rcases List.mem_append.mp hp with hmem | hmem
          · exact hacc p hmem
          · simp only [List.mem_singleton] at hmem
            subst hmem
            exact hstack top (List.mem_cons_self _ _)
      · rw [if_neg h2] at heq
        exact ih (i + 1) lo stack acc st' acc' heq (by omega) hstack hacc

theorem fbpCore_stack_closes (bl br : Char) (pq : List (Nat × Nat)) (xs : List Char) :
    ∀ (i : Nat) (stack : List Nat) (acc : List (Nat × Nat)) (acc' : List (Nat × Nat)),
      fbpCore bl br pq xs i stack acc = some ([], acc') →
      ∀ s ∈ stack, ∃ r, i ≤ r ∧ (s, r) ∈ acc' := by
  induction xs with
  | nil =>
    intro i stack acc acc' heq s hs
    simp only [fbpCore, Option.some_inj] at heq
    have h1 : stack = [] := congrArg Prod.fst heq
    rw [h1] at hs
    simp at hs
  | cons c rest ih =>
    intro i stack acc acc' heq s hs
    simp only [fbpCore] at heq
    by_cases h1 : (c == bl && !is_char_in_pairs i pq) = true
    · rw [if_pos h1] at heq
      obtain ⟨r, hr, hmem⟩ := ih (i + 1) (i :: stack) acc acc' heq s
        (List.mem_cons_of_mem _ hs)
      exact ⟨r, by omega, hmem⟩
    · rw [if_neg h1] at heq
      by_cases h2 : (c == br && !is_char_in_pairs i pq) = true
      · rw [if_pos h2] at heq
        cases stack with
        | nil => simp at hs
        | cons top st =>
          have heq' : fbpCore bl br pq rest (i + 1) st (acc ++ [(top, i)]) =
              some ([], acc') := heq
          rcases List.mem_cons.mp hs with hse | hse
          · subst hse
            refine ⟨i, Nat.le_refl i, ?_⟩
            rw [fbpCore_acc_eq] at heq'
            cases hN : fbpCore bl br pq rest (i + 1) st [] with
            | none => rw [hN] at heq'; simp at heq'
            | some r =>
              rw [hN] at heq'
              simp only [Option.map_some', Option.some_inj] at heq'
              have hsub : (acc ++ [(s, i)]) ++ r.2 = acc' := by
                have := congrArg Prod.snd heq'
                simpa using this
              rw [← hsub]
              simp
          · obtain ⟨r, hr, hmem⟩ := ih (i + 1) st (acc ++ [(top, i)]) acc' heq' s hse
            exact ⟨r, by omega, hmem⟩
      · rw [if_neg h2] at heq
        obtain ⟨r, hr, hmem⟩ := ih (i + 1) stack acc acc' heq s hs
        exact ⟨r, by omega, hmem⟩

theorem find_bracket_position_eq (T : List Char) (bl br : Char)
    (pq P : List (Nat × Nat)) :
    find_bracket_position T bl br pq = some P ↔
      fbpCore bl br pq T 0 [] [] = some ([], P) := by
  unfold find_bracket_position
  cases hc : fbpCore bl br pq T 0 [] [] with
  | none => simp
  | some r =>
    obtain ⟨stack, acc⟩ := r
    cases stack with
    | nil => simp
    | cons t s => simp

theorem bracket_stack_empty (T : List Char) (bl br : Char)
    (pq P : List (Nat × Nat))
    (hT : find_bracket_position T bl br pq = some P) (hblc : bl ≠ ',')
    (m : Nat) (hm : m ≤ T.length)
    (hfree : m = 0 ∨ (1 ≤ m ∧ T.get? (m - 1) = some ',' ∧
      is_char_in_pairs (m - 1) P = false)) :
    ∃ accm, fbpCore bl br pq (T.take m) 0 [] [] = some ([], accm) := by
  have hlen : (T.take m).length = m := by simp [List.length_take]; omega
  have hfull := (find_bracket_position_eq T bl br pq P).mp hT
  have hsplit := fbpCore_append bl br pq (T.take m) (T.drop m) 0 [] []
  rw [List.take_append_drop, hfull] at hsplit
  cases hpre : fbpCore bl br pq (T.take m) 0 [] [] with
  | none => rw [hpre] at hsplit; simp at hsplit
  | some r =>
    obtain ⟨stk, accm⟩ := r
    rw [hpre] at hsplit
    simp only [Option.some_bind] at hsplit
    cases stk with
    | nil => exact ⟨accm, rfl⟩
    | cons top s =>
      exfalso
      rcases hfree with h0 | ⟨h1, hcomma, hfreeP⟩
      · subst h0
        simp [fbpCore] at hpre
      · have hmaster := (fbpCore_master T bl br pq (T.take m) 0 [] []
          (top :: s) accm hpre
          (fun j hj => by
            rw [Nat.zero_add]
            exact (List.get?_take (by rw [hlen] at hj; exact hj)).symm)
          (by simp) (by simp)).1 top (List.mem_cons_self _ _)
        rw [Nat.zero_add, hlen] at hmaster
        obtain ⟨r0, hr0, hmem⟩ := fbpCore_stack_closes bl br pq (T.drop m)
          (0 + (T.take m).length) (top :: s) accm P hsplit.symm top
          (List.mem_cons_self _ _)
        rw [Nat.zero_add, hlen] at hr0
        have htne : top ≠ m - 1 := by
          intro he
          rw [he, hcomma] at hmaster
          injection hmaster.2 with hbad
          exact hblc hbad.symm
        have htrue : is_char_in_pairs (m - 1) P = true := by
          rw [inPairs_true_iff]
          exact ⟨(top, r0), hmem, by omega, by omega⟩
        rw [htrue] at hfreeP
        exact absurd hfreeP (by simp)

theorem bracket_decompose (T : List Char) (bl br : Char)
    (pqT P : List (Nat × Nat))
    (hP : find_bracket_position T bl br pqT = some P)
    (a b : Nat) (hab : a ≤ b) (hbl2 : b ≤ T.length)
    (Sq : List (Nat × Nat))
    (hcorr : ∀ j, j < b - a →
      is_char_in_pairs (a + j) pqT = is_char_in_pairs j Sq)
    (hsta : ∃ acca, fbpCore bl br pqT (T.take a) 0 [] [] = some ([], acca))
    (hstb : ∃ accb, fbpCore bl br pqT (T.take b) 0 [] [] = some ([], accb)) :
    ∃ S A D, find_bracket_position (sliceN a b T) bl br Sq = some S ∧
      P = A ++ shiftPairs a S ++ D ∧
      (∀ p ∈ A, p.2 < a) ∧ (∀ p ∈ S, p.2 < b - a) ∧ (∀ p ∈ D, b ≤ p.1) := by
  have hal : a ≤ T.length := le_trans hab hbl2
  have hlena : (T.take a).length = a := by simp [List.length_take]; omega
  have hseglen : (sliceN a b T).length = b - a := sliceN_length a b T hbl2
  obtain ⟨acca, hpra⟩ := hsta
  obtain ⟨accb, hprb⟩ := hstb
  set seg := sliceN a b T with hsegdef
  -- standalone scan of the segment with its own quote map
  cases hN : fbpCore bl br Sq seg 0 [] [] with
  | none =>
    exfalso
    have e3 := fbpCore_append bl br pqT (T.take a) seg 0 [] []
    rw [take_add_slice T a b hab, hpra, hprb, hlena, Nat.zero_add] at e3
    simp only [Option.some_bind] at e3
    rw [fbpCore_acc_eq] at e3
    have hshift := fbpCore_shift bl br pqT Sq seg 0 a [] []
    rw [Nat.zero_add] at hshift
    simp only [List.map_nil] at hshift
    rw [show shiftPairs a [] = [] from rfl] at hshift
    rw [hshift (fun j hj => by
      simp only [Nat.zero_add]
      exact hcorr j (by rw [hseglen] at hj; exact hj)), hN] at e3
    simp at e3
  | some rseg =>
    obtain ⟨nst, S0⟩ := rseg
    -- the in-context scan of the segment
    have hshift := fbpCore_shift bl br pqT Sq seg 0 a [] []
    rw [Nat.zero_add] at hshift
    simp only [List.map_nil] at hshift
    rw [show shiftPairs a [] = [] from rfl] at hshift
    have hctx : fbpCore bl br pqT seg a [] acca =
        some ((nst.map (· + a), acca ++ shiftPairs a S0)) := by
      rw [fbpCore_acc_eq]
      rw [hshift (fun j hj => by
        simp only [Nat.zero_add]
        exact hcorr j (by rw [hseglen] at hj; exact hj)), hN]
      rfl
    -- the scan up to `b` factors through the segment
    have e3 := fbpCore_append bl br pqT (T.take a) seg 0 [] []
    rw [take_add_slice T a b hab, hpra, hprb, hlena, Nat.zero_add] at e3
    simp only [Option.some_bind] at e3
    rw [hctx] at e3
    have hnst : nst = [] := by
      have := congrArg Prod.fst (Option.some_inj.mp e3)
      simp only at this
      exact List.map_eq_nil.mp this.symm
    subst hnst
    have hsegscan : find_bracket_position seg bl br Sq = some S0 := by
      unfold find_bracket_position
      rw [hN]
      rfl
    -- full decomposition
    have hfull := (find_bracket_position_eq T bl br pqT P).mp hP
    have e1 := fbpCore_append bl br pqT (T.take a) (T.drop a) 0 [] []
    rw [List.take_append_drop, hfull, hpra, hlena, Nat.zero_add] at e1
    simp only [Option.some_bind] at e1
    rw [drop_eq_slice_append T a b hab hbl2] at e1
    rw [fbpCore_append bl br pqT seg (T.drop b) a [] acca] at e1
    rw [hctx] at e1
    simp only [Option.some_bind, List.map_nil] at e1
    rw [hseglen, show a + (b - a) = b by omega] at e1
    rw [fbpCore_acc_eq bl br pqT (T.drop b) b [] (acca ++ shiftPairs a S0)] at e1
    cases hW : fbpCore bl br pqT (T.drop b) b [] [] with
    | none => rw [hW] at e1; simp at e1
    | some w =>
      obtain ⟨wst, D0⟩ := w
      rw [hW] at e1
      simp only [Option.map_some', Option.some_inj] at e1
      have hPd : P = acca ++ shiftPairs a S0 ++ D0 := by
        have := congrArg Prod.snd e1
        simpa [List.append_assoc] using this
      -- bounds
      have hAbound : ∀ p ∈ acca, p.2 < a := by
        intro p hp
        have hm := (fbpCore_master T bl br pqT (T.take a) 0 [] [] [] acca hpra
          (fun j hj => by
            rw [Nat.zero_add]
            exact (List.get?_take (by rw [hlena] at hj; exact hj)).symm)
          (by simp) (by simp)).2 p hp
        rw [Nat.zero_add, hlena] at hm
        exact hm.2.1
      have hSbound : ∀ p ∈ S0, p.2 < b - a := by
        intro p hp
        have hm := (fbpCore_master seg bl br Sq seg 0 [] [] [] S0 hN
          (fun j hj => by rw [Nat.zero_add]) (by simp) (by simp)).2 p hp
        rw [Nat.zero_add, hseglen] at hm
        exact hm.2.1
      have hDbound : ∀ p ∈ D0, b ≤ p.1 := by
        intro p hp
        exact fbpCore_lower bl br pqT (T.drop b) b b [] [] wst D0 hW
          (Nat.le_refl b) (by simp) (by simp) p hp
      exact ⟨S0, acca, D0, hsegscan, hPd, hAbound, hSbound, hDbound⟩

theorem quote_pairs_chars (T : List Char) (P : List (Nat × Nat))
    (hT : find_quote_position T = some P) :
    ∀ p ∈ P, ∃ q, (q = '\'' ∨ q = '"') ∧ T.get? p.1 = some q ∧
      T.get? p.2 = some q := by
  intro p hp
  have hfull := (find_quote_position_eq T P).mp hT
  have hm := (fqpCore_master T T 0 'x' none []
    (fun j hj => by rw [Nat.zero_add]) (by simp) (by simp)).2 p
    (by rw [hfull]; exact hp)
  exact hm.2.2

theorem quote_state_none_at (T : List Char) (P : List (Nat × Nat))
    (hT : find_quote_position T = some P) (m : Nat) (hm : m ≤ T.length)
    (hcm : T.get? m = some ',') (hfm : is_char_in_pairs m P = false) :
    (fqpCore (T.take m) 0 'x' none []).1 = none := by
  cases hstc : (fqpCore (T.take m) 0 'x' none []).1 with
  | none => rfl
  | some ql =>
    obtain ⟨q, l⟩ := ql
    obtain ⟨r, hr, hmem, hlm, _, _⟩ := quote_open_at T P hT m hm q l hstc
    obtain ⟨qc, hqc, _, hrc⟩ := quote_pairs_chars T P hT (l, r) hmem
    have hrm : r ≠ m := by
      intro he
      rw [he, hcm] at hrc
      injection hrc with h2
      rcases hqc with h | h <;> rw [h] at h2 <;> exact absurd h2.symm (by decide)
    have htrue : is_char_in_pairs m P = true := by
      rw [inPairs_true_iff]
      exact ⟨(l, r), hmem, by omega, by omega⟩
    rw [htrue] at hfm
    exact absurd hfm (by simp)

theorem quote_state_none_len (T : List Char) (P : List (Nat × Nat))
    (hT : find_quote_position T = some P) :
    (fqpCore (T.take T.length) 0 'x' none []).1 = none := by
  rw [List.take_length]
  have := (find_quote_position_eq T P).mp hT
  rw [this]

theorem bracket_pairs_chars (T : List Char) (bl br : Char)
    (pq P : List (Nat × Nat)) (hT : find_bracket_position T bl br pq = some P) :
    ∀ p ∈ P, T.get? p.1 = some bl ∧ T.get? p.2 = some br := by
  intro p hp
  have hfull := (find_bracket_position_eq T bl br pq P).mp hT
  have hm := (fbpCore_master T bl br pq T 0 [] [] [] P hfull
    (fun j hj => by rw [Nat.zero_add]) (by simp) (by simp)).2 p hp
  exact ⟨hm.2.2.1, hm.2.2.2⟩

theorem bracket_stack_empty_at (T : List Char) (bl br : Char)
    (pq P : List (Nat × Nat))
    (hT : find_bracket_position T bl br pq = some P) (hbrc : br ≠ ',')
    (m : Nat) (hm : m ≤ T.length)
    (hcm : T.get? m = some ',') (hfm : is_char_in_pairs m P = false) :
    ∃ accm, fbpCore bl br pq (T.take m) 0 [] [] = some ([], accm) := by
  have hlen : (T.take m).length = m := by simp [List.length_take]; omega
  have hfull := (find_bracket_position_eq T bl br pq P).mp hT
  have hsplit := fbpCore_append bl br pq (T.take m) (T.drop m) 0 [] []
  rw [List.take_append_drop, hfull] at hsplit
  cases hpre : fbpCore bl br pq (T.take m) 0 [] [] with
  | none => rw [hpre] at hsplit; simp at hsplit
  | some r =>
    obtain ⟨stk, accm⟩ := r
    rw [hpre] at hsplit
    simp only [Option.some_bind] at hsplit
    cases stk with
    | nil => exact ⟨accm, rfl⟩
    | cons top s =>
      exfalso
      have hmaster := (fbpCore_master T bl br pq (T.take m) 0 [] []
        (top :: s) accm hpre
        (fun j hj => by
          rw [Nat.zero_add]
          exact (List.get?_take (by rw [hlen] at hj; exact hj)).symm)
        (by simp) (by simp)).1 top (List.mem_cons_self _ _)
      rw [Nat.zero_add, hlen] at hmaster
      obtain ⟨r0, hr0, hmem⟩ := fbpCore_stack_closes bl br pq (T.drop m)
        (0 + (T.take m).length) (top :: s) accm P hsplit.symm top
        (List.mem_cons_self _ _)
      rw [Nat.zero_add, hlen] at hr0
      have hr0m : r0 ≠ m := by
        intro he
        have := (bracket_pairs_chars T bl br pq P hT (top, r0) hmem).2
        rw [he, hcm] at this
        injection this with h2
        exact hbrc h2.symm
      have htrue : is_char_in_pairs m P = true := by
        rw [inPairs_true_iff]
        exact ⟨(top, r0), hmem, by omega, by omega⟩
      rw [htrue] at hfm
      exact absurd hfm (by simp)

theorem bracket_stack_empty_len (T : List Char) (bl br : Char)
    (pq P : List (Nat × Nat)) (hT : find_bracket_position T bl br pq = some P) :
    ∃ accm, fbpCore bl br pq (T.take T.length) 0 [] [] = some ([], accm) := by
  rw [List.take_length]
  exact ⟨P, (find_bracket_position_eq T bl br pq P).mp hT⟩

theorem enclosure_transfer (M A S D : List (Nat × Nat)) (a b j : Nat)
    (hM : M = A ++ shiftPairs a S ++ D)
    (hA : ∀ p ∈ A, p.2 < a) (hD : ∀ p ∈ D, b ≤ p.1) (hj : j < b - a) :
    is_char_in_pairs (a + j) M = is_char_in_pairs j S := by
  apply bool_eq_of_iff
  rw [inPairs_true_iff, inPairs_true_iff, hM]
  constructor
  · rintro ⟨p, hp, h1, h2⟩
    rcases List.mem_append.mp hp with hp' | hpD
    · rcases List.mem_append.mp hp' with hpA | hpS
      · exact absurd h2 (by have := hA p hpA; omega)
      · simp only [shiftPairs, List.mem_map] at hpS
        obtain ⟨q, hq, hqe⟩ := hpS
        subst hqe
        exact ⟨q, hq, by simp at h1 ⊢; omega, by simp at h2 ⊢; omega⟩
    · exact absurd h1 (by have := hD p hpD; omega)
  · rintro ⟨q, hq, h1, h2⟩
    refine ⟨(q.1 + a, q.2 + a), ?_, by omega, by omega⟩
    refine List.mem_append.mpr (Or.inl (List.mem_append.mpr (Or.inr ?_)))
    exact List.mem_map.mpr ⟨q, hq, rfl⟩

theorem charPosGo_mem (c : Char) (xs : List Char) :
    ∀ (i p : Nat), p ∈ charPosGo c xs i ↔
      ∃ j, p = i + j ∧ xs.get? j = some c := by
  induction xs with
  | nil => intro i p; simp [charPosGo]
  | cons x rest ih =>
    intro i p
    simp only [charPosGo]
    by_cases hx : (x == c) = true
    · rw [if_pos hx]
      have hxc : x = c := by simpa using hx
      subst hxc
      constructor
      · intro hp
        rcases List.mem_cons.mp hp with h | h
        · exact ⟨0, by omega, by simp [h]⟩
        · obtain ⟨j, hj1, hj2⟩ := (ih (i + 1) p).mp h
          exact ⟨j + 1, by omega, by simpa using hj2⟩
      · rintro ⟨j, hj1, hj2⟩
        cases j with
        | zero =>
          apply List.mem_cons.mpr
          left
          omega
        | succ j' =>
          apply List.mem_cons.mpr
          right
          exact (ih (i + 1) p).mpr ⟨j', by omega, by simpa using hj2⟩
    · rw [if_neg hx]
      constructor
      · intro hp
        obtain ⟨j, h1, h2⟩ := (ih (i + 1) p).mp hp
        exact ⟨j + 1, by omega, by simpa using h2⟩
      · rintro ⟨j, hj1, hj2⟩
        cases j with
        | zero =>
          simp only [List.get?] at hj2
          injection hj2 with h2
          rw [h2] at hx
          simp at hx
        | succ j' =>
          exact (ih (i + 1) p).mpr ⟨j', by omega, by simpa using hj2⟩

theorem charPosGo_sorted (c : Char) (xs : List Char) :
    ∀ i, List.Pairwise (· < ·) (charPosGo c xs i) ∧
      (∀ p ∈ charPosGo c xs i, i ≤ p) := by
  induction xs with
  | nil => intro i; simp [charPosGo]
  | cons x rest ih =>
    intro i
    simp only [charPosGo]
    obtain ⟨hs, hb⟩ := ih (i + 1)
    by_cases hx : (x == c) = true
    · rw [if_pos hx]
      refine ⟨List.pairwise_cons.mpr ⟨fun p hp => by have := hb p hp; omega, hs⟩, ?_⟩
      intro p hp
      rcases List.mem_cons.mp hp with h | h
      · omega
      · have := hb p h; omega
    · rw [if_neg hx]
      exact ⟨hs, fun p hp => by have := hb p hp; omega⟩

theorem segmentsF_mem (T : List Char) (fc0 : List Nat)
    (hfc0 : ∀ c ∈ fc0, c < T.length) :
    ∀ (cuts : List Nat) (start : Nat) (x : List Char),
      x ∈ segmentsF T cuts start →
      List.Pairwise (· < ·) cuts →
      (∀ c ∈ cuts, start ≤ c) →
      (∀ c ∈ cuts, c ∈ fc0) →
      (∀ c ∈ fc0, start ≤ c → c ∈ cuts) →
      (start = 0 ∨ (1 ≤ start ∧ (start - 1) ∈ fc0)) →
      ∃ a b, x = sliceN a b T ∧ a ≤ b ∧ b ≤ T.length ∧
        (a = 0 ∨ (1 ≤ a ∧ (a - 1) ∈ fc0)) ∧
        (b = T.length ∨ b ∈ fc0) ∧
        (∀ c ∈ fc0, ¬(a ≤ c ∧ c < b)) := by
  intro cuts
  induction cuts with
  | nil =>
    intro start x hx hsort hmem hsub hcover hstart
    simp only [segmentsF] at hx
    by_cases hlt : start < T.length
    · rw [if_pos hlt] at hx
      simp only [List.mem_singleton] at hx
      subst hx
      refine ⟨start, T.length, ?_, by omega, Nat.le_refl _, hstart, Or.inl rfl, ?_⟩
      · unfold sliceN
        rw [List.take_length]
      · intro c hc hcon
        have := hcover c hc hcon.1
        simp at this
    · rw [if_neg hlt] at hx
      simp at hx
  | cons p ps ih =>
    intro start x hx hsort hmem hsub hcover hstart
    simp only [segmentsF] at hx
    rcases List.mem_cons.mp hx with hx1 | hx2
    · have hpfc : p ∈ fc0 := hsub p (List.mem_cons_self _ _)
      refine ⟨start, p, hx1, hmem p (List.mem_cons_self _ _),
        by have := hfc0 p hpfc; omega, hstart, Or.inr hpfc, ?_⟩
      intro c hc hcon
      have hcmem := hcover c hc hcon.1
      rcases List.mem_cons.mp hcmem with he | hin
      · omega
      · have := (List.pairwise_cons.mp hsort).1 c hin
        omega
    · refine ih (p + 1) x hx2 (List.pairwise_cons.mp hsort).2
        (fun c hc => by have := (List.pairwise_cons.mp hsort).1 c hc; omega)
        (fun c hc => hsub c (List.mem_cons_of_mem _ hc))
        (fun c hc hge => ?_)
        (Or.inr ⟨by omega, by
          have := hsub p (List.mem_cons_self _ _)
          simpa using this⟩)
      have hsp : start ≤ p := hmem p (List.mem_cons_self _ _)
      rcases List.mem_cons.mp (hcover c hc (by omega)) with he | hin
      · omega
      · exact hin

/-! ### Claim C7 -/

/-- C7 counterexample: the span `,` splits into one empty segment, and
re-splitting the empty segment yields the empty list, not the
one-element list containing the empty segment. -/
theorem resplit_empty_segment_counterexample :
    split_args_text_to_list [ ',' ] = some [ [] ] ∧
    split_args_text_to_list ([] : List Char) ≠ some [ ([] : List Char) ] := by
  decide

/-- C7 (amended): for every span on which the splitter succeeds, every
NON-EMPTY segment of the result re-splits to exactly the one-element
list containing that segment unchanged; an empty segment (arising from
consecutive or leading top-level commas) instead re-splits to the
empty list. -/
theorem resplit_nonempty_segment_identity (args_text : List Char)
    (l : List (List Char)) (hs : split_args_text_to_list args_text = some l) :
    ∀ seg ∈ l, seg ≠ [] → split_args_text_to_list seg = some [seg] := by
  intro seg hmemseg hne
  unfold split_args_text_to_list at hs
  cases hq : find_quote_position args_text with
  | none => simp only [hq] at hs; exact absurd hs (by simp)
  | some PQ =>
  simp only [hq] at hs
  cases hr : find_bracket_position args_text '(' ')' PQ with
  | none => simp only [hr] at hs; exact absurd hs (by simp)
  | some PR =>
  simp only [hr] at hs
  cases hcu : find_bracket_position args_text '{' '}' PQ with
  | none => simp only [hcu] at hs; exact absurd hs (by simp)
  | some PC =>
  simp only [hcu] at hs
  cases hsq : find_bracket_position args_text '[' ']' PQ with
  | none => simp only [hsq] at hs; exact absurd hs (by simp)
  | some PS =>
  simp only [hsq] at hs
  rw [splitArgsGo_eq_segments] at hs
  set fc := (charPosGo ',' args_text 0).filter
    (fun p => !enclosedComma PR PC PS PQ p) with hfcdef
  have hl : l = segmentsF args_text fc 0 := by simpa using hs.symm
  have hfc_char : ∀ c ∈ fc, args_text.get? c = some ',' ∧
      c < args_text.length ∧ enclosedComma PR PC PS PQ c = false := by
    intro c hcm
    obtain ⟨hmem0, hpred⟩ := List.mem_filter.mp hcm
    obtain ⟨j, hj1, hj2⟩ := (charPosGo_mem ',' args_text 0 c).mp hmem0
    have hg : args_text.get? c = some ',' := by
      rw [show c = j by omega]; exact hj2
    exact ⟨hg, get?_some_lt hg, by simpa using hpred⟩
  have hfc_sorted : List.Pairwise (· < ·) fc :=
    List.Pairwise.sublist (List.filter_sublist _) (charPosGo_sorted ',' args_text 0).1
  have hfc_enc : ∀ c ∈ fc, is_char_in_pairs c PR = false ∧
      is_char_in_pairs c PC = false ∧ is_char_in_pairs c PS = false ∧
      is_char_in_pairs c PQ = false := by
    intro c hcm
    have h := (hfc_char c hcm).2.2
    simp only [enclosedComma, Bool.or_eq_false_iff] at h
    exact ⟨h.1.1.1, h.1.1.2, h.1.2, h.2⟩
  obtain ⟨a, b, hxeq, hab, hbl, hacond, hbcond, hnocut⟩ :=
    segmentsF_mem args_text fc (fun c hcm => (hfc_char c hcm).2.1) fc 0 seg
      (hl ▸ hmemseg) hfc_sorted (fun c _ => Nat.zero_le c) (fun c hcm => hcm)
      (fun c hcm _ => hcm) (Or.inl rfl)
  have hal : a ≤ args_text.length := by omega
  -- quote-scanner state is outside a string at both boundaries
  have hqa : (fqpCore (args_text.take a) 0 'x' none []).1 = none := by
    rcases hacond with h0 | ⟨h1, hfc1⟩
    · exact quote_state_none args_text PQ hq a hal (Or.inl h0)
    · exact quote_state_none args_text PQ hq a hal
        (Or.inr ⟨h1, (hfc_char _ hfc1).1, (hfc_enc _ hfc1).2.2.2⟩)
  have hqb : (fqpCore (args_text.take b) 0 'x' none []).1 = none := by
    rcases hbcond with h0 | hbf
    · rw [h0]; exact quote_state_none_len args_text PQ hq
    · exact quote_state_none_at args_text PQ hq b hbl (hfc_char _ hbf).1
        (hfc_enc _ hbf).2.2.2
  obtain ⟨SQ, AQ, DQ, hsegq, hPq, hAq, hSqB, hDq⟩ :=
    quote_decompose args_text PQ hq a b hab hbl hqa hqb
  have hcorrQ : ∀ j, j < b - a →
      is_char_in_pairs (a + j) PQ = is_char_in_pairs j SQ :=
    fun j hj => enclosure_transfer PQ AQ SQ DQ a b j hPq hAq hDq hj
  -- the round-bracket stack is empty at both boundaries
  have hbraR : ∃ acca, fbpCore '(' ')' PQ (args_text.take a) 0 [] [] =
      some ([], acca) := by
    rcases hacond with h0 | ⟨h1, hfc1⟩
    · exact bracket_stack_empty args_text '(' ')' PQ PR hr (by decide) a hal
        (Or.inl h0)
    · exact bracket_stack_empty args_text '(' ')' PQ PR hr (by decide) a hal
        (Or.inr ⟨h1, (hfc_char _ hfc1).1, (hfc_enc _ hfc1).1⟩)
  have hbrbR : ∃ accb, fbpCore '(' ')' PQ (args_text.take b) 0 [] [] =
      some ([], accb) := by
    rcases hbcond with h0 | hbf
    · rw [h0]; exact bracket_stack_empty_len args_text '(' ')' PQ PR hr
    · exact bracket_stack_empty_at args_text '(' ')' PQ PR hr (by decide) b hbl
        (hfc_char _ hbf).1 (hfc_enc _ hbf).1
  obtain ⟨SR, AR, DR, hsegr, hPr, hAr, hSrB, hDr⟩ :=
    bracket_decompose args_text '(' ')' PQ PR hr a b hab hbl SQ hcorrQ hbraR hbrbR
  have hcorrR : ∀ j, j < b - a →
      is_char_in_pairs (a + j) PR = is_char_in_pairs j SR :=
    fun j hj => enclosure_transfer PR AR SR DR a b j hPr hAr hDr hj
  -- curly
  have hbraC : ∃ acca, fbpCore '{' '}' PQ (args_text.take a) 0 [] [] =
      some ([], acca) := by
    rcases hacond with h0 | ⟨h1, hfc1⟩
    · exact bracket_stack_empty args_text '{' '}' PQ PC hcu (by decide) a hal
        (Or.inl h0)
    · exact bracket_stack_empty args_text '{' '}' PQ PC hcu (by decide) a hal
        (Or.inr ⟨h1, (hfc_char _ hfc1).1, (hfc_enc _ hfc1).2.1⟩)
  have hbrbC : ∃ accb, fbpCore '{' '}' PQ (args_text.take b) 0 [] [] =
      some ([], accb) := by
    rcases hbcond with h0 | hbf
    · rw [h0]; exact bracket_stack_empty_len args_text '{' '}' PQ PC hcu
    · exact bracket_stack_empty_at args_text '{' '}' PQ PC hcu (by decide) b hbl
        (hfc_char _ hbf).1 (hfc_enc _ hbf).2.1
  obtain ⟨SC, AC, DC, hsegc, hPc, hAc, hScB, hDc⟩ :=
    bracket_decompose args_text '{' '}' PQ PC hcu a b hab hbl SQ hcorrQ hbraC hbrbC
  have hcorrC : ∀ j, j < b - a →
      is_char_in_pairs (a + j) PC = is_char_in_pairs j SC :=
    fun j hj => enclosure_transfer PC AC SC DC a b j hPc hAc hDc hj
  -- square
  have hbraS : ∃ acca, fbpCore '[' ']' PQ (args_text.take a) 0 [] [] =
      some ([], acca) := by
    rcases hacond with h0 | ⟨h1, hfc1⟩
    · exact bracket_stack_empty args_text '[' ']' PQ PS hsq (by decide) a hal
        (Or.inl h0)
    · exact bracket_stack_empty args_text '[' ']' PQ PS hsq (by decide) a hal
        (Or.inr ⟨h1, (hfc_char _ hfc1).1, (hfc_enc _ hfc1).2.2.1⟩)
  have hbrbS : ∃ accb, fbpCore '[' ']' PQ (args_text.take b) 0 [] [] =
      some ([], accb) := by
    rcases hbcond with h0 | hbf
    · rw [h0]; exact bracket_stack_empty_len args_text '[' ']' PQ PS hsq
    · exact bracket_stack_empty_at args_text '[' ']' PQ PS hsq (by decide) b hbl
        (hfc_char _ hbf).1 (hfc_enc _ hbf).2.2.1
  obtain ⟨SS, AS2, DS2, hsegs, hPs, hAs, hSsB, hDs⟩ :=
    bracket_decompose args_text '[' ']' PQ PS hsq a b hab hbl SQ hcorrQ hbraS hbrbS
  have hcorrS : ∀ j, j < b - a →
      is_char_in_pairs (a + j) PS = is_char_in_pairs j SS :=
    fun j hj => enclosure_transfer PS AS2 SS DS2 a b j hPs hAs hDs hj
  -- compute the re-split of the segment
  rw [hxeq] at hne ⊢
  have hsplitseg : split_args_text_to_list (sliceN a b args_text) =
      some (splitArgsGo (sliceN a b args_text) SR SC SS SQ
        (charPosGo ',' (sliceN a b args_text) 0) 0 []) := by
    unfold split_args_text_to_list
    simp only [hsegq, hsegr, hsegc, hsegs]
  rw [hsplitseg, splitArgsGo_eq_segments]
  have hfilter : (charPosGo ',' (sliceN a b args_text) 0).filter
      (fun p => !enclosedComma SR SC SS SQ p) = [] := by
    apply List.filter_eq_nil.mpr
    intro j hj
    obtain ⟨j0, hj0, hget0⟩ :=
      (charPosGo_mem ',' (sliceN a b args_text) 0 j).mp hj
    have hget : (sliceN a b args_text).get? j = some ',' := by
      rw [show j = j0 by omega]; exact hget0
    have hjlen : j < (sliceN a b args_text).length := get?_some_lt hget
    have hjb : j < b - a := by
      rw [sliceN_length a b args_text hbl] at hjlen; exact hjlen
    have hTg : args_text.get? (a + j) = some ',' := by
      rw [← sliceN_get? a b args_text j hjb]; exact hget
    have hmemT : (a + j) ∈ charPosGo ',' args_text 0 :=
      (charPosGo_mem ',' args_text 0 (a + j)).mpr ⟨a + j, by omega, hTg⟩
    have hnotfc : (a + j) ∉ fc := fun hin => hnocut _ hin ⟨by omega, by omega⟩
    have hencl : enclosedComma PR PC PS PQ (a + j) = true := by
      cases henc : enclosedComma PR PC PS PQ (a + j) with
      | true => rfl
      | false =>
        exact absurd (List.mem_filter.mpr ⟨hmemT, by simp [henc]⟩) hnotfc
    have henc2 : enclosedComma SR SC SS SQ j = true := by
      simp only [enclosedComma] at hencl ⊢
      rw [← hcorrR j hjb, ← hcorrC j hjb, ← hcorrS j hjb, ← hcorrQ j hjb]
      exact hencl
    simp [henc2]
  rw [hfilter]
  have hpos : 0 < (sliceN a b args_text).length := List.length_pos.mpr hne
  simp [segmentsF, hpos]

/-- C7 witness: the non-empty segment `a` of the span `a, b` re-splits
to exactly itself. -/
theorem resplit_nonempty_segment_identity_witness :
    split_args_text_to_list [ 'a' ] = some [ [ 'a' ] ] :=
  resplit_nonempty_segment_identity c6Span [ [ 'a' ], [ ' ', 'b' ] ]
    (by decide) [ 'a' ] (by decide) (by decide)
